import Mathlib

/-!
Verification of the eightsetmap storage engine against its specification.

The engine maps 64-bit keys to sorted sets of 64-bit values, stored in a
single backing file:

  magic (u32) | sidecar_len (u32) | sidecar bytes | num_keys (u64)
  | directory: num_keys x (key u64, offset i64), ascending keys
  | records: caplen u64 (hi 32 = capacity, lo 32 = length) followed by
    capacity 64-bit slots, the first length of which are the values.

All multi-byte integers are little-endian.  The shallow embedding below
works at the levels the code itself works at: the sorted-set algebra is
modelled on `List Nat`, the read/write paths on a word-level image of the
file (everything the engine reads or writes after the header is a 64-bit
word at an 8-aligned position), and the header parsing on a byte list.
Machine integers are `Nat` with explicit `% 2^32` where Go truncates to
`uint32`; Go panics and I/O failures are `Option.none`.
-/

namespace ESM

/-- Modulus for Go `uint32` truncation. -/
def U32 : Nat := 4294967296

/-! ### Sorted-set algebra (src/unnamed/part_000)

`subUnion`, `subIntersect` are the pairwise merge walks; `diffMerge` is the
merge loop inlined in `Difference` after the two `Get` calls.  The loop in
`Difference` runs while `i < len(v1) || j < len(v2)` and indexes `v1[i]`
whenever `j < len(v2)`, so the state "v1 exhausted, v2 not" is an index
out of range; that state is `none` here. -/

/-- Embedding of `subUnion(v1, v2)`: ascending merge, equal heads emitted
once with both sides advanced. -/
def subUnion (v1 v2 : List Nat) : List Nat :=
  match v1, v2 with
  | [], v2 => v2
  | a :: t1, [] => a :: t1
  | a :: t1, b :: t2 =>
    if a ≤ b then
      if a = b then a :: subUnion t1 t2
      else a :: subUnion t1 (b :: t2)
    else b :: subUnion (a :: t1) t2
termination_by v1.length + v2.length

/-- Embedding of `subIntersect(v1, v2)`: emit only matches, stop when either
side runs out. -/
def subIntersect (v1 v2 : List Nat) : List Nat :=
  match v1, v2 with
  | a :: t1, b :: t2 =>
    if a ≤ b then
      if a = b then a :: subIntersect t1 t2
      else subIntersect t1 (b :: t2)
    else subIntersect (a :: t1) t2
  | _, _ => []
termination_by v1.length + v2.length

/-- Embedding of the merge loop of `Difference(m, k1, k2)` acting on the two
fetched value slices.  `none` is the index-out-of-range panic the loop hits
when `v1` is exhausted while `v2` still has elements. -/
def diffMerge (v1 v2 : List Nat) : Option (List Nat) :=
  match v1, v2 with
  | [], [] => some []
  | a :: t1, [] => (diffMerge t1 []).map (fun r => a :: r)
  | [], _ :: _ => none
  | a :: t1, b :: t2 =>
    if a ≤ b then
      if a = b then diffMerge t1 t2
      else (diffMerge t1 (b :: t2)).map (fun r => a :: r)
    else diffMerge (a :: t1) t2
termination_by v1.length + v2.length

/-! ### Packers (src/writing.go 366-383) -/

/-- Package-level default capacity knob (`DefaultCapacity uint32 = 32`). -/
def DefaultCapacity : Nat := 32

/-- Package-level fill cutoff knob (`FillFactor uint32 = 24`). -/
def FillFactor : Nat := 24

/-- Embedding of `TightPacker`: capacity is exactly the value count, no pad. -/
def TightPackerM (valsize : Nat) : Option (Nat × Nat) :=
  some (valsize, 0)

/-- Embedding of `DefaultPacker`.  All arithmetic is Go `uint32`, hence the
`% U32`; the `none` case is the `panic("size mismatch")` overflow guard. -/
def DefaultPackerM (valsize : Nat) : Option (Nat × Nat) :=
  let sz1 := (valsize + (DefaultCapacity - FillFactor)) % U32
  let sz := (DefaultCapacity * (1 + sz1 / DefaultCapacity)) % U32
  if sz < valsize then none
  else some (sz, ((sz - valsize) * 8) % U32)

/-- The least multiple of 32 strictly greater than `valsize + 8`; the
reserved capacity the spec describes for the default packer. -/
def nextCap32 (valsize : Nat) : Nat :=
  32 * (1 + (valsize + 8) / 32)

/-! ### Association lists standing for Go maps

Go `map[uint64]T` is modelled as an association list where the first
binding for a key wins; plain map assignment therefore prepends. -/

/-- Lookup in a Go-map model: first binding wins. -/
def lookupA {α : Type} : List (Nat × α) → Nat → Option α
  | [], _ => none
  | (k, v) :: t, key => if k = key then some v else lookupA t key

/-- Go `if _, exists := m[k]; !exists { m[k] = v }`. -/
def insertIfAbsent {α : Type} (l : List (Nat × α)) (k : Nat) (v : α) : List (Nat × α) :=
  match lookupA l k with
  | some _ => l
  | none => (k, v) :: l

/-- The LRU cache keyed by original key; `Add` prepends (the newest binding
shadows any older one, matching the cache's update-on-add semantics; the
fixed 65535 capacity never matters to the claims). -/
def cacheAdd (c : List (Nat × List Nat)) (k : Nat) (v : List Nat) : List (Nat × List Nat) :=
  (k, v) :: c

/-! ### The standard reader (src/main.go current `stdMap`, src/reading.go)

The file image is kept from the start of the directory table on: every read
or write the engine performs after construction is a 64-bit word at byte
position `start + 8*i`, so `body` is that list of words (directory table
words followed by the record regions) and byte positions are translated by
`wordAt`.  Offsets are the non-negative `int64` word values of real files. -/

structure MState where
  start : Nat
  body : List Nat
  offsets : List (Nat × Nat)
  shiftkey : Nat
  cache : List (Nat × List Nat)

/-- Reading one little-endian 64-bit word at byte position `p`; positions
before the directory table or unaligned positions are not modelled (the
engine never reads them after construction). -/
def wordAt (m : MState) (p : Nat) : Option Nat :=
  if m.start ≤ p ∧ (p - m.start) % 8 = 0 then m.body.get? ((p - m.start) / 8) else none

/-- Embedding of the `for okey != key` scan in `seekToBackingPosition`
(src/reading.go 38-55), reading `(key, offset)` words sequentially from the
directory table.  `none` is the `panic(err)` on a failed read, `some none`
the not-found return, `some (some o)` the located offset. -/
def scanB (s k : Nat) : List Nat → Option (Option Nat)
  | [] => none
  | okey :: rest =>
    if okey >>> s ≠ k >>> s then some none
    else
      match rest with
      | [] => none
      | o :: t => if okey = k then some (some o) else scanB s k t

/-- Embedding of `(*stdMap).seekToBackingPosition` (src/reading.go 10-65).
With shift 0 the in-memory offset is the record's byte position; with
shift > 0 it is the first table index of the bucket of `key >> shift`, and
the on-disk table is scanned from there.  `none` is a panic, `some none`
the `(0, false)` miss return, `some (some p)` success with the file
positioned at byte `p`. -/
def seekToBackingPositionM (m : MState) (key : Nat) : Option (Option Nat) :=
  match lookupA m.offsets (key >>> m.shiftkey) with
  | none => some none
  | some offs =>
    if m.shiftkey = 0 then some (some offs)
    else
      match scanB m.shiftkey key (m.body.drop (offs * 2)) with
      | none => none
      | some none => some none
      | some (some o) => if o = 0 then some none else some (some o)

/-- Embedding of `(*stdMap).getFromBacking` (src/reading.go 68-98): read the
`caplen` word, take the low 32 bits as the length, return an empty slice for
length 0, otherwise read that many value words and insert them into the
cache.  Read errors are soft (`nil, false`); the result carries the cache
state after the call. -/
def getFromBackingM (m : MState) (key : Nat) :
    Option ((List Nat × Bool) × List (Nat × List Nat)) :=
  match seekToBackingPositionM m key with
  | none => none
  | some none => some (([], false), m.cache)
  | some (some p) =>
    match wordAt m p with
    | none => some (([], false), m.cache)
    | some caplen =>
      let l := caplen % U32
      if l = 0 then some (([], true), m.cache)
      else
        let ws := m.body.drop ((p - m.start) / 8 + 1)
        if l ≤ ws.length then
          some ((ws.take l, true), cacheAdd m.cache key (ws.take l))
        else
          some (([], false), m.cache)

/-- Embedding of `(*Map).Get` (src/main.go 103-109, current version): consult
the cache first, fall through to the backing file. -/
def mapGetM (m : MState) (key : Nat) :
    Option ((List Nat × Bool) × List (Nat × List Nat)) :=
  match lookupA m.cache key with
  | some v => some ((v, true), m.cache)
  | none => getFromBackingM m key

/-! ### Directory construction (`NewShifted`, src/main.go 51-100 and
src/unnamed/part_001 53-102)

The loop over the on-disk directory entries.  Note the source mutates `key`
with `key >>= shift` before `lastkey = key`, so under shift > 0 the
not-sorted check compares the raw key of an entry against the truncated key
of its predecessor. -/

/-- Embedding of the `NewShifted` directory loop.  `i` is the running table
index, `lastkey` the value the previous iteration left in `lastkey`, and
`offs` the in-memory table built so far; `none` is the
`panic("keys are not sorted! cannot use shift until repacked")`. -/
def buildOffsetsGo (shift : Nat) :
    List (Nat × Nat) → Nat → Nat → List (Nat × Nat) → Option (List (Nat × Nat))
  | [], _, _, offs => some offs
  | (key, o) :: rest, i, lastkey, offs =>
    if shift ≠ 0 then
      if key < lastkey then none
      else
        buildOffsetsGo shift rest (i + 1) (key >>> shift)
          (insertIfAbsent offs (key >>> shift) i)
    else
      buildOffsetsGo shift rest (i + 1) key ((key, o) :: offs)

/-! ### Well-formed files

A map file in the documented format is determined by the directory start
position and the per-key records; `bodyWords` lays the image out exactly as
the full-rewrite commit writes it: the `(key, offset)` table followed by the
record regions, offsets pointing at each record's `caplen` word. -/

/-- One per-key record: the stored values followed by the reserved tail
slots (`extra`); its on-disk capacity is the total slot count. -/
structure Rec where
  key : Nat
  vals : List Nat
  extra : List Nat

/-- Stored capacity of a record. -/
def recCap (r : Rec) : Nat := r.vals.length + r.extra.length

/-- The packed `caplen` word: `uint64(cap)<<32 | uint64(len)`. -/
def mkCaplen (c l : Nat) : Nat := (c <<< 32) ||| l

/-- The words of one record region: `caplen` then all capacity slots. -/
def recWords (r : Rec) : List Nat := mkCaplen (recCap r) r.vals.length :: (r.vals ++ r.extra)

/-- Word count of a record region. -/
def recSize (r : Rec) : Nat := 1 + recCap r

/-- Byte position of the first record, after the 16-byte-per-entry table. -/
def dirStart (start : Nat) (rs : List Rec) : Nat := start + 16 * rs.length

/-- The on-disk directory: each key paired with the byte offset of its
record, records laid out consecutively from `pos`. -/
def mkDir (pos : Nat) : List Rec → List (Nat × Nat)
  | [] => []
  | r :: t => (r.key, pos) :: mkDir (pos + 8 * recSize r) t

/-- The directory table of the file built from `rs`. -/
def fileDir (start : Nat) (rs : List Rec) : List (Nat × Nat) :=
  mkDir (dirStart start rs) rs

/-- Flattening `(key, offset)` pairs into the table's word sequence. -/
def pairJoin : List (Nat × Nat) → List Nat
  | [] => []
  | (k, o) :: t => k :: o :: pairJoin t

/-- The file image from `start` on: directory table words, then records. -/
def bodyWords (start : Nat) (rs : List Rec) : List Nat :=
  pairJoin (fileDir start rs) ++ (rs.map recWords).flatten

/-- Opening the file built from `rs` with the given shift: run the
`NewShifted` directory loop over the on-disk table and start with an empty
cache.  `none` is the not-sorted panic. -/
def openM (start : Nat) (rs : List Rec) (shift : Nat) : Option MState :=
  (buildOffsetsGo shift (fileDir start rs) 0 0 []).map fun offs =>
    ⟨start, bodyWords start rs, offs, shift, []⟩

/-- Total word count of a record list. -/
def sizeSum (rs : List Rec) : Nat := (rs.map recSize).sum

/-- Strictly ascending key order, the order the full-rewrite commit emits. -/
def Ascending (rs : List Rec) : Prop := List.Chain' (· < ·) (rs.map Rec.key)

/-- Every record's capacity fits `uint32`, as in every file the writer can
produce. -/
def SizesOK (rs : List Rec) : Prop := ∀ r ∈ rs, recCap r < U32

/-- Index of the first directory entry whose truncated key is `p`; the value
the `NewShifted` loop records for bucket `p`. -/
def firstPrefixIdx (s p : Nat) : List (Nat × Nat) → Option Nat
  | [] => none
  | (k, _) :: t => if k >>> s = p then some 0 else (firstPrefixIdx s p t).map (· + 1)

/-- First-of-two option choice, used to state the directory-loop invariant. -/
def oOr {α : Type} : Option α → Option α → Option α
  | some a, _ => some a
  | none, b => b

/-! ### The memory-mapped reader (src/mmap.go)

`MMap` walks `m.offsets` and, for each key, slices the mapping into the
`length` value words (`nodes`) and the `capacity - length` reserved trailing
slots (`extras`); `memMap.Get` is a map lookup on `nodes`.  A Go slice whose
bounds fall outside the mapping (or with the end before the start, which
happens when `length > capacity`) panics: those are `none`. -/

/-- The per-key body of the `MMap` construction loop (src/mmap.go 59-71):
read `caplen` at the offset, slice out the value view and, when the slice
ends differ, the reserved view.  The slice ends are computed in the source
as `offs + int64(uint32(caplen)*8)` and `offs + int64(uint32(caplen>>32)*8)`
— uint32 multiplications, so the byte counts wrap modulo 2^32 when the
length or capacity reaches 2^29; `lw` and `cw` are those wrapped byte
counts in words. -/
def mmapNodeAt (m : MState) (off : Nat) : Option (List Nat × List Nat) :=
  match wordAt m off with
  | none => none
  | some caplen =>
    let l := caplen % U32
    let c := (caplen >>> 32) % U32
    let lw := l * 8 % U32 / 8
    let cw := c * 8 % U32 / 8
    let ws := m.body.drop ((off - m.start) / 8 + 1)
    if lw ≤ ws.length then
      if cw = lw then some (ws.take lw, [])
      else if lw ≤ cw ∧ cw ≤ ws.length then some (ws.take lw, (ws.drop lw).take (cw - lw))
      else none
    else none

/-- The `MMap` construction loop over the offsets table; `none` when any
slice panics. -/
def mmapBuildList (m : MState) : List (Nat × Nat) → Option (List (Nat × (List Nat × List Nat)))
  | [] => some []
  | (k, off) :: t =>
    match mmapNodeAt m off, mmapBuildList m t with
    | some nv, some rest => some ((k, nv) :: rest)
    | _, _ => none

/-- Embedding of `(*memMap).Get` (src/mmap.go 77-80): a map lookup on the
value views. -/
def memMapGet (nodes : List (Nat × (List Nat × List Nat))) (key : Nat) : List Nat × Bool :=
  match lookupA nodes key with
  | some nv => (nv.1, true)
  | none => ([], false)

/-! ### The mutable map and the committer (src/writing.go 129-693)

`MutableMap` embeds the base map and owns the dirty staging table and the
open `MutableKey` handles; a handle is `(key, hashed value set, synced)`.
Go map iteration order is unspecified; the association lists are iterated
front to back, which is one admissible order, and every property proved
below is order-independent. -/

structure MutState where
  base : MState
  dirty : List (Nat × List Nat)
  mutkeys : List (Nat × List Nat × Bool)
  autosync : Bool

/-- `(*MutableKey).Sync` materializes the hashed set as a sorted unique
slice (src/writing.go 205-213). -/
def syncVals (vals : List Nat) : List Nat :=
  List.insertionSort (· ≤ ·) vals.dedup

/-- The autosync flush loop at the top of `Commit` and `CommitWithPacker`:
sync every unsynced handle into the dirty table, then drop every handle. -/
def flushMutkeys (dirty : List (Nat × List Nat)) :
    List (Nat × List Nat × Bool) → List (Nat × List Nat)
  | [] => dirty
  | (k, vals, synced) :: t =>
    if synced then flushMutkeys dirty t
    else flushMutkeys ((k, syncVals vals) :: dirty) t

/-- The `if m.autosync` block shared by `Commit` and `CommitWithPacker`. -/
def flushM (m : MutState) : MutState :=
  if m.autosync then { m with dirty := flushMutkeys m.dirty m.mutkeys, mutkeys := [] } else m

/-- Phase-1 check of `inplaceCommit` for one dirty key (src/writing.go
280-297): resolve the record, read `caplen`, require stored capacity at
least the new `uint32` length.  `none` propagates a scan panic; `some false`
is the `return false`. -/
def inplaceCheckO (m : MState) (k : Nat) (vals : List Nat) : Option Bool :=
  match seekToBackingPositionM m k with
  | none => none
  | some none => some false
  | some (some p) =>
    match wordAt m p with
    | none => some false
    | some caplen => some (decide (vals.length % U32 ≤ (caplen >>> 32) % U32))

/-- The phase-1 loop over the dirty table. -/
def inplacePhase1 (m : MState) : List (Nat × List Nat) → Option Bool
  | [] => some true
  | (k, vals) :: t =>
    match inplaceCheckO m k vals with
    | none => none
    | some false => some false
    | some true => inplacePhase1 m t

/-- Writing one 64-bit word at word index `i`; a write past the current end
extends the file as a file write would. -/
def writeWord (body : List Nat) (i w : Nat) : List Nat :=
  if i < body.length then body.set i w
  else body ++ List.replicate (i - body.length) 0 ++ [w]

/-- Sequential word writes from index `i`. -/
def writeWords (body : List Nat) (i : Nat) : List Nat → List Nat
  | [] => body
  | w :: t => writeWords (writeWord body i w) (i + 1) t

/-- Phase 2 of `inplaceCommit` (src/writing.go 312-345): for each dirty key
re-seek, re-read `caplen`, rewrite it (same capacity, new length) when the
length changed, then overwrite the value slots.  `some none` is a mid-run
`return false`; in the well-formed states the claims quantify over it never
arises after phase 1 passes. -/
def inplaceWrites (m : MState) : List (Nat × List Nat) → Option (Option MState)
  | [] => some (some m)
  | (k, vals) :: t =>
    match seekToBackingPositionM m k with
    | none => none
    | some none => some none
    | some (some p) =>
      match wordAt m p with
      | none => some none
      | some caplen =>
        let c := (caplen >>> 32) % U32
        let w := (p - m.start) / 8
        let body1 := if caplen % U32 = vals.length % U32 then m.body
          else writeWord m.body w (mkCaplen c vals.length)
        let body2 := writeWords body1 (w + 1) vals
        inplaceWrites { m with body := body2 } t

/-- `cache.Add` for every committed dirty entry (src/writing.go 347-350,
687-690). -/
def cacheAddAll (c : List (Nat × List Nat)) : List (Nat × List Nat) → List (Nat × List Nat)
  | [] => c
  | (k, v) :: t => cacheAddAll (cacheAdd c k v) t

/-- Embedding of `inplaceCommit`: phase-1 checks, then the write pass, then
move the dirty entries into the cache.  `none` is a panic, `some none` the
`return false` fall-through, `some (some mut)` success. -/
def inplaceCommitM (mm : MutState) : Option (Option MutState) :=
  match inplacePhase1 mm.base mm.dirty with
  | none => none
  | some false => some none
  | some true =>
    match inplaceWrites mm.base mm.dirty with
    | none => none
    | some none => some none
    | some (some base2) =>
      some (some { mm with
        base := { base2 with cache := cacheAddAll base2.cache mm.dirty },
        dirty := [] })

/-- Reading an existing record for copy-through during a full rewrite
(src/writing.go 565-583): read `caplen`, read `capacity` words, truncate to
the first `length`.  A short read is an error and `length > capacity` is a
slice panic, both `none` (the named file is untouched either way). -/
def readRecordM (m : MState) (off : Nat) : Option (List Nat) :=
  match wordAt m off with
  | none => none
  | some caplen =>
    let c := (caplen >>> 32) % U32
    let l := caplen % U32
    let ws := m.body.drop ((off - m.start) / 8 + 1)
    if c ≤ ws.length then
      if l ≤ c then some ((ws.take c).take l) else none
    else none

/-- The words one record contributes to the rewritten file: `caplen` with
the packer's capacity, the values, then the pad bytes as zero words (both
built-in packers pad whole words; `Commit` passes no extra callback, so the
pad is all zeros). -/
def packWordsM (packer : Nat → Option (Nat × Nat)) (vals : List Nat) : Option (List Nat) :=
  (packer (vals.length % U32)).map fun sp =>
    mkCaplen sp.1 vals.length :: (vals ++ List.replicate (sp.2 / 8) 0)

/-- The record region for one key of the rewrite (src/writing.go 524-616):
dirty keys are written from the dirty table, clean keys copied through the
packer from the old file. -/
def rewriteOne (m : MState) (dirty : List (Nat × List Nat))
    (packer : Nat → Option (Nat × Nat)) (k : Nat) : Option (List Nat) :=
  match lookupA dirty k with
  | some newvals => packWordsM packer newvals
  | none =>
    match lookupA m.offsets k with
    | some off => (readRecordM m off).bind (packWordsM packer)
    | none => none

/-- All record regions, in key order. -/
def rewriteRecs (m : MState) (dirty : List (Nat × List Nat))
    (packer : Nat → Option (Nat × Nat)) : List Nat → Option (List (List Nat))
  | [] => some []
  | k :: t =>
    match rewriteOne m dirty packer k, rewriteRecs m dirty packer t with
    | some ws, some rest => some (ws :: rest)
    | _, _ => none

/-- The merged, ascending key list the rewrite emits (src/writing.go
485-494): every key of the in-memory table plus every dirty key not already
present, sorted. -/
def collectKeys (offsets : List (Nat × Nat)) (dirty : List (Nat × List Nat)) : List Nat :=
  List.insertionSort (· ≤ ·)
    (offsets.map Prod.fst ++ (dirty.map Prod.fst).filter (fun k => (lookupA offsets k).isNone))

/-- The two-pass directory of the new file: keys zipped with the real record
offsets (the placeholder pass is observationally the fix-up pass's input). -/
def mkDirW (pos : Nat) : List (Nat × List Nat) → List (Nat × Nat)
  | [] => []
  | (k, ws) :: t => (k, pos) :: mkDirW (pos + 8 * ws.length) t

/-- Embedding of `CommitWithPacker` (src/writing.go 422-693) in exact mode:
the autosync flush, the shift > 0 "not implemented" error, then the full
rewrite into a fresh image that atomically replaces the old one, followed by
installing the new offsets and moving dirty entries into the cache.  `none`
covers every error return and panic, all of which leave the named file with
its old content (failed renames after the `.old` shuffle are not modelled).
The sidecar `Data` is copied verbatim, so `start` is unchanged. -/
def commitWithPackerM (mm : MutState) (packer : Nat → Option (Nat × Nat)) :
    Option MutState :=
  let mut2 := flushM mm
  if mut2.autosync ∧ mut2.dirty = [] then some mut2
  else if mut2.base.shiftkey ≠ 0 then none
  else
    let keys := collectKeys mut2.base.offsets mut2.dirty
    match rewriteRecs mut2.base mut2.dirty packer keys with
    | none => none
    | some recs =>
      let table := mkDirW (mut2.base.start + 16 * keys.length) (keys.zip recs)
      some { mut2 with
        base := { start := mut2.base.start,
                  body := pairJoin table ++ recs.flatten,
                  offsets := table,
                  shiftkey := 0,
                  cache := cacheAddAll mut2.base.cache mut2.dirty },
        dirty := [] }

/-- Embedding of `Commit(packed)` (src/writing.go 393-416): autosync flush
and empty-dirty no-op, tight rewrite when packed, otherwise in-place with
fall-through to a default-packed rewrite. -/
def commitM (mm : MutState) (packed : Bool) : Option MutState :=
  let mut2 := flushM mm
  if mm.autosync ∧ mut2.dirty = [] then some mut2
  else if packed then commitWithPackerM mut2 TightPackerM
  else
    match inplaceCommitM mut2 with
    | none => none
    | some (some mres) => some mres
    | some none => commitWithPackerM mut2 DefaultPackerM

/-- The logical effect of a successful in-place commit on one record: the
new values overwrite the first slots, the remaining slot contents stay. -/
def applyOne (rs : List Rec) (kv : Nat × List Nat) : List Rec :=
  rs.map fun r =>
    if r.key = kv.1 then ⟨r.key, kv.2, (r.vals ++ r.extra).drop kv.2.length⟩ else r

/-- The effect of the whole dirty table, applied in processing order. -/
def applyDirty (rs : List Rec) (dirty : List (Nat × List Nat)) : List Rec :=
  dirty.foldl applyOne rs


/-! ### Opening in the current header format (`New` / `NewShifted` of the
current reader) -/

/-- Modelled from the spec: the magic word of the current file format
(§4.1). -/
def MAGIC : Nat := 0x6D73386A

/-- Little-endian byte decoding. -/
def bytesToNatLE : List Nat → Nat
  | [] => 0
  | b :: t => b % 256 + 256 * bytesToNatLE t

/-- Little-endian encoding of `x` in `w` bytes. -/
def natToBytesLE : Nat → Nat → List Nat
  | 0, _ => []
  | w + 1, x => x % 256 :: natToBytesLE w (x / 256)

/-- Modelled from the spec: reading `num_keys` directory entries of 16 bytes
each, an 8-byte key then an 8-byte offset (§4.1). -/
def parsePairsB : Nat → List Nat → Option (List (Nat × Nat))
  | 0, _ => some []
  | n + 1, bytes =>
    if 16 ≤ bytes.length then
      (parsePairsB n (bytes.drop 16)).map
        (fun t => (bytesToNatLE (bytes.take 8), bytesToNatLE ((bytes.drop 8).take 8)) :: t)
    else none

/-- Modelled from the spec: the open sequence of `New`/`NewShifted` on an
existing file in the current format (the current reader is not among the
supplied sources, which predate the header).  Per §4.1/§4.2 it reads a
4-byte little-endian magic and fails fast on mismatch, then the 4-byte
sidecar length, the sidecar bytes, the 8-byte `num_keys`, and only then the
directory entries, which are fed to the source-translated `NewShifted`
directory loop `buildOffsetsGo`.  The result is the sidecar bytes and the
in-memory table; `none` is fatal at open. -/
def openSpec (shift : Nat) (file : List Nat) : Option (List Nat × List (Nat × Nat)) :=
  if file.length < 4 then none
  else if bytesToNatLE (file.take 4) ≠ MAGIC then none
  else
    let rest1 := file.drop 4
    if rest1.length < 4 then none
    else
      let slen := bytesToNatLE (rest1.take 4)
      let rest2 := rest1.drop 4
      if rest2.length < slen then none
      else
        let sidecar := rest2.take slen
        let rest3 := rest2.drop slen
        if rest3.length < 8 then none
        else
          let nkeys := bytesToNatLE (rest3.take 8)
          match parsePairsB nkeys (rest3.drop 8) with
          | none => none
          | some dir => (buildOffsetsGo shift dir 0 0 []).map fun offs => (sidecar, offs)

/-- The byte encoding of a directory table per §4.1. -/
def encodePairs : List (Nat × Nat) → List Nat
  | [] => []
  | (k, o) :: t => natToBytesLE 8 k ++ (natToBytesLE 8 o ++ encodePairs t)

/-- The byte encoding of a whole header and directory per §4.1. -/
def encodeFile (sc : List Nat) (dir : List (Nat × Nat)) : List Nat :=
  natToBytesLE 4 MAGIC ++ (natToBytesLE 4 sc.length ++ (sc ++
    (natToBytesLE 8 dir.length ++ encodePairs dir)))


end ESM

/-! ## Theorems -/

namespace ESM

/-! ### Arithmetic of the `caplen` word -/

theorem U32_eq_pow : U32 = 2 ^ 32 := by norm_num [U32]

theorem mkCaplen_eq (c l : Nat) (hl : l < U32) : mkCaplen c l = c * U32 + l := by
  have hl' : l < 2 ^ 32 := by rw [← U32_eq_pow]; exact hl
  have h := Nat.mul_add_lt_is_or hl' c
  unfold mkCaplen
  rw [Nat.shiftLeft_eq, U32_eq_pow, Nat.mul_comm c (2 ^ 32), ← h, Nat.mul_comm (2 ^ 32) c]

theorem mkCaplen_lo (c l : Nat) (hl : l < U32) : mkCaplen c l % U32 = l := by
  rw [mkCaplen_eq c l hl]
  simp only [U32] at *
  omega

theorem mkCaplen_hi (c l : Nat) (hl : l < U32) (hc : c < U32) :
    (mkCaplen c l >>> 32) % U32 = c := by
  rw [mkCaplen_eq c l hl, Nat.shiftRight_eq_div_pow, ← U32_eq_pow]
  simp only [U32] at *
  omega

/-! ### Association-list facts -/

theorem lookupA_eq_none {α : Type} :
    ∀ (l : List (Nat × α)) (k : Nat), k ∉ l.map Prod.fst → lookupA l k = none := by
  intro l
  induction l with
  | nil => intro k _; rfl
  | cons e t ih =>
    intro k h
    obtain ⟨k0, v0⟩ := e
    simp only [List.map_cons, List.mem_cons] at h
    push_neg at h
    have hk : k0 ≠ k := fun he => h.1 he.symm
    simp only [lookupA, if_neg hk]
    exact ih k h.2

theorem lookupA_of_mem {α : Type} :
    ∀ {l : List (Nat × α)} {k : Nat} {v : α},
      (k, v) ∈ l → (l.map Prod.fst).Nodup → lookupA l k = some v := by
  intro l
  induction l with
  | nil => intro k v hm _; cases hm
  | cons e t ih =>
    intro k v hm hnd
    obtain ⟨k0, v0⟩ := e
    simp only [List.map_cons, List.nodup_cons] at hnd
    rcases List.mem_cons.mp hm with he | ht
    · cases he
      simp [lookupA]
    · have hk : k0 ≠ k := by
        intro he
        exact hnd.1 (he ▸ (List.mem_map.mpr ⟨(k, v), ht, rfl⟩))
      simp only [lookupA, if_neg hk]
      exact ih ht hnd.2

/-! ### Table and record layout -/

theorem pairJoin_length : ∀ l : List (Nat × Nat), (pairJoin l).length = 2 * l.length
  | [] => rfl
  | (k, o) :: t => by
    simp only [pairJoin, List.length_cons, pairJoin_length t]
    omega

theorem pairJoin_drop :
    ∀ (i : Nat) (l : List (Nat × Nat)) (X : List Nat), i ≤ l.length →
      (pairJoin l ++ X).drop (2 * i) = pairJoin (l.drop i) ++ X := by
  intro i
  induction i with
  | zero => intro l X _; simp
  | succ n ih =>
    intro l X h
    match l with
    | [] => simp at h
    | (k, o) :: t =>
      have h2 : 2 * (n + 1) = 2 * n + 1 + 1 := by ring
      simp only [pairJoin, h2, List.cons_append, List.drop_succ_cons, List.drop]
      exact ih t X (by simpa using h)

theorem sizeSum_nil : sizeSum [] = 0 := rfl

theorem sizeSum_cons (r : Rec) (t : List Rec) : sizeSum (r :: t) = recSize r + sizeSum t := by
  simp [sizeSum]

theorem recWords_length (r : Rec) : (recWords r).length = recSize r := by
  simp only [recWords, recSize, recCap, List.length_cons, List.length_append]
  omega

theorem mkDir_map_fst : ∀ (pos : Nat) (rs : List Rec),
    (mkDir pos rs).map Prod.fst = rs.map Rec.key
  | _, [] => rfl
  | pos, r :: t => by simp [mkDir, mkDir_map_fst _ t]

theorem mkDir_length : ∀ (pos : Nat) (rs : List Rec), (mkDir pos rs).length = rs.length
  | _, [] => rfl
  | pos, r :: t => by simp [mkDir, mkDir_length _ t]

theorem mkDir_append : ∀ (pos : Nat) (l1 l2 : List Rec),
    mkDir pos (l1 ++ l2) = mkDir pos l1 ++ mkDir (pos + 8 * sizeSum l1) l2 := by
  intro pos l1
  induction l1 generalizing pos with
  | nil => intro l2; simp [mkDir, sizeSum_nil]
  | cons r t ih =>
    intro l2
    have h : pos + 8 * recSize r + 8 * sizeSum t = pos + 8 * sizeSum (r :: t) := by
      rw [sizeSum_cons]; ring
    calc mkDir pos ((r :: t) ++ l2)
        = (r.key, pos) :: mkDir (pos + 8 * recSize r) (t ++ l2) := rfl
      _ = (r.key, pos) ::
          (mkDir (pos + 8 * recSize r) t ++ mkDir (pos + 8 * recSize r + 8 * sizeSum t) l2) := by
          rw [ih]
      _ = mkDir pos (r :: t) ++ mkDir (pos + 8 * sizeSum (r :: t)) l2 := by rw [h]; rfl

/-! ### The `NewShifted` directory loop -/

theorem buildOffsetsGo_zero : ∀ (dir : List (Nat × Nat)) (i last : Nat) (acc : List (Nat × Nat)),
    buildOffsetsGo 0 dir i last acc = some (dir.reverse ++ acc)
  | [], _, _, acc => by simp [buildOffsetsGo]
  | (k, o) :: t, i, last, acc => by
    simp only [buildOffsetsGo, ne_eq, not_true_eq_false, if_false, reduceIte,
      buildOffsetsGo_zero t (i + 1) k ((k, o) :: acc)]
    simp

theorem oOr_none_right {α : Type} (a : Option α) : oOr a none = a := by
  cases a <;> rfl

theorem oOr_absorb {α : Type} (a : Option α) (b : α) (c : Option α) :
    oOr (oOr a (some b)) c = oOr a (some b) := by
  cases a <;> rfl

theorem lookupA_insertIfAbsent_self {α : Type} (l : List (Nat × α)) (k : Nat) (v : α) :
    lookupA (insertIfAbsent l k v) k = oOr (lookupA l k) (some v) := by
  unfold insertIfAbsent
  cases h : lookupA l k with
  | some w => simp [oOr, h]
  | none => simp [lookupA, oOr]

theorem lookupA_insertIfAbsent_ne {α : Type} (l : List (Nat × α)) (k : Nat) (v : α)
    (p : Nat) (h : k ≠ p) : lookupA (insertIfAbsent l k v) p = lookupA l p := by
  unfold insertIfAbsent
  cases hh : lookupA l k with
  | some w => rfl
  | none => simp [lookupA, if_neg h]

theorem shiftRight_mono {a b : Nat} (s : Nat) (h : a ≤ b) : a >>> s ≤ b >>> s := by
  simp only [Nat.shiftRight_eq_div_pow]
  exact Nat.div_le_div_right h

theorem shiftRight_le_self (a s : Nat) : a >>> s ≤ a := by
  simp only [Nat.shiftRight_eq_div_pow]
  exact Nat.div_le_self a (2 ^ s)

theorem nodup_of_chain_lt {l : List Nat} (h : List.Chain' (· < ·) l) : l.Nodup := by
  have hp : l.Pairwise (· < ·) := List.chain'_iff_pairwise.mp h
  exact hp.imp (fun hab => Nat.ne_of_lt hab)

/-- Invariant of the `NewShifted` loop under shift > 0 over an ascending
directory: the loop succeeds, and the finished table maps each truncated key
to the index of the first entry in that bucket (entries already in the
accumulator win). -/
theorem buildOffsetsGo_shift (s : Nat) (hs : s ≠ 0) :
    ∀ (dir : List (Nat × Nat)) (i last : Nat) (acc : List (Nat × Nat)),
      List.Chain' (· < ·) (dir.map Prod.fst) →
      (∀ e t, dir = e :: t → last ≤ e.1) →
      ∃ res, buildOffsetsGo s dir i last acc = some res ∧
        ∀ p, lookupA res p = oOr (lookupA acc p) ((firstPrefixIdx s p dir).map (· + i)) := by
  intro dir
  induction dir with
  | nil =>
    intro i last acc _ _
    exact ⟨acc, rfl, fun p => by cases lookupA acc p <;> rfl⟩
  | cons e t ih =>
    intro i last acc hch hhead
    obtain ⟨k0, o0⟩ := e
    have hlast : last ≤ k0 := hhead (k0, o0) t rfl
    have hch' : List.Chain' (· < ·) (t.map Prod.fst) := by
      simpa using (List.Chain'.tail (by simpa using hch))
    have hhead' : ∀ e1 t1, t = e1 :: t1 → k0 >>> s ≤ e1.1 := by
      intro e1 t1 he
      subst he
      have h01 : k0 < e1.1 := by
        have := hch
        simp only [List.map_cons] at this
        exact (List.chain'_cons.mp this).1
      exact Nat.le_trans (shiftRight_le_self k0 s) (Nat.le_of_lt h01)
    obtain ⟨res, hres, hlook⟩ :=
      ih (i + 1) (k0 >>> s) (insertIfAbsent acc (k0 >>> s) i) hch' hhead'
    refine ⟨res, ?_, ?_⟩
    · simp only [buildOffsetsGo, if_pos hs, if_neg (Nat.not_lt.mpr hlast)]
      exact hres
    · intro p
      rw [hlook p]
      by_cases hp : k0 >>> s = p
      · subst hp
        rw [lookupA_insertIfAbsent_self, oOr_absorb]
        simp [firstPrefixIdx]
      · rw [lookupA_insertIfAbsent_ne _ _ _ _ hp]
        simp only [firstPrefixIdx, if_neg hp, Option.map_map]
        have : ((· + i) ∘ (· + 1)) = (· + (i + 1)) := by
          funext x; simp; omega
        rw [this]

theorem firstPrefixIdx_eq_none (s p : Nat) :
    ∀ l : List (Nat × Nat), (∀ e ∈ l, e.1 >>> s ≠ p) → firstPrefixIdx s p l = none := by
  intro l
  induction l with
  | nil => intro _; rfl
  | cons e t ih =>
    intro h
    obtain ⟨k0, o0⟩ := e
    simp only [firstPrefixIdx, if_neg (h (k0, o0) (List.mem_cons_self _ _))]
    rw [ih (fun e he => h e (List.mem_cons_of_mem _ he))]
    rfl

theorem firstPrefixIdx_drop (s p : Nat) :
    ∀ (l : List (Nat × Nat)) (i : Nat), firstPrefixIdx s p l = some i →
      i ≤ l.length ∧ ∃ e t, l.drop i = e :: t ∧ e.1 >>> s = p := by
  intro l
  induction l with
  | nil => intro i h; cases h
  | cons e t ih =>
    intro i h
    obtain ⟨k0, o0⟩ := e
    by_cases hp : k0 >>> s = p
    · simp only [firstPrefixIdx, if_pos hp] at h
      cases h
      exact ⟨Nat.zero_le _, (k0, o0), t, rfl, hp⟩
    · simp only [firstPrefixIdx, if_neg hp] at h
      cases hfi : firstPrefixIdx s p t with
      | none => rw [hfi] at h; cases h
      | some j =>
        rw [hfi] at h
        have hij : j + 1 = i := by simpa using h
        subst hij
        obtain ⟨hle, e1, t1, hdrop, hpre⟩ := ih j hfi
        exact ⟨by simp; omega, e1, t1, by simpa using hdrop, hpre⟩

theorem mem_drop_firstPrefixIdx (s : Nat) :
    ∀ (l : List (Nat × Nat)) (k o i : Nat), (k, o) ∈ l →
      firstPrefixIdx s (k >>> s) l = some i → (k, o) ∈ l.drop i := by
  intro l
  induction l with
  | nil => intro k o i hm; cases hm
  | cons e t ih =>
    intro k o i hm h
    obtain ⟨k0, o0⟩ := e
    by_cases hp : k0 >>> s = k >>> s
    · simp only [firstPrefixIdx, if_pos hp] at h
      cases h
      simpa using hm
    · simp only [firstPrefixIdx, if_neg hp] at h
      cases hfi : firstPrefixIdx s (k >>> s) t with
      | none => rw [hfi] at h; cases h
      | some j =>
        rw [hfi] at h
        have hij : j + 1 = i := by simpa using h
        subst hij
        have hm' : (k, o) ∈ t := by
          rcases List.mem_cons.mp hm with he | ht
          · exfalso; apply hp; rw [show k0 = k from congrArg Prod.fst he.symm]
          · exact ht
        simpa using ih k o j hm' hfi

theorem firstPrefixIdx_isSome_of_mem (s : Nat) :
    ∀ (l : List (Nat × Nat)) (k : Nat), k ∈ l.map Prod.fst →
      (firstPrefixIdx s (k >>> s) l).isSome = true := by
  intro l
  induction l with
  | nil => intro k h; simp at h
  | cons e t ih =>
    intro k h
    obtain ⟨k0, o0⟩ := e
    by_cases hp : k0 >>> s = k >>> s
    · simp [firstPrefixIdx, if_pos hp]
    · simp only [List.map_cons, List.mem_cons] at h
      rcases h with he | ht
      · exact absurd (he ▸ rfl) hp
      · simp only [firstPrefixIdx, if_neg hp]
        have := ih k ht
        cases hfi : firstPrefixIdx s (k >>> s) t with
        | none => rw [hfi] at this; cases this
        | some j => rfl

/-- The bucket scan of `seekToBackingPosition`: started on the table words of
a sorted directory suffix whose head is in the bucket of `k` and which
contains `(k, o)`, the scan returns offset `o`. -/
theorem scanB_finds (s : Nat) :
    ∀ (l : List (Nat × Nat)) (rest : List Nat) (k o : Nat),
      List.Chain' (· < ·) (l.map Prod.fst) →
      (k, o) ∈ l →
      (∀ e t, l = e :: t → e.1 >>> s = k >>> s) →
      scanB s k (pairJoin l ++ rest) = some (some o) := by
  intro l
  induction l with
  | nil => intro rest k o _ hm _; cases hm
  | cons e t ih =>
    intro rest k o hch hm hhead
    obtain ⟨k0, o0⟩ := e
    have hpre : k0 >>> s = k >>> s := hhead (k0, o0) t rfl
    show scanB s k (k0 :: o0 :: (pairJoin t ++ rest)) = some (some o)
    by_cases hk : k0 = k
    · subst hk
      have hnd : (((k0, o0) :: t).map Prod.fst).Nodup := nodup_of_chain_lt hch
      have h1 : lookupA ((k0, o0) :: t) k0 = some o0 := by simp [lookupA]
      have h2 : lookupA ((k0, o0) :: t) k0 = some o := lookupA_of_mem hm hnd
      have ho : o = o0 := by rw [h1] at h2; exact (Option.some_inj.mp h2).symm
      subst ho
      simp [scanB]
    · have hm' : (k, o) ∈ t := by
        rcases List.mem_cons.mp hm with he | ht
        · exact absurd (congrArg Prod.fst he.symm) hk
        · exact ht
      have hhead' : ∀ e1 t1, t = e1 :: t1 → e1.1 >>> s = k >>> s := by
        intro e1 t1 he
        subst he
        have h01 : k0 < e1.1 := by
          have := hch
          simp only [List.map_cons] at this
          exact (List.chain'_cons.mp this).1
        have h1k : e1.1 ≤ k := by
          have hp : (e1.1 :: t1.map Prod.fst).Pairwise (· < ·) := by
            have := List.chain'_iff_pairwise.mp hch
            simp only [List.map_cons] at this
            exact (List.pairwise_cons.mp this).2
          have hkmem : k ∈ e1.1 :: t1.map Prod.fst := by
            have : k ∈ (e1 :: t1).map Prod.fst := List.mem_map.mpr ⟨(k, o), hm', rfl⟩
            simpa using this
          rcases List.mem_cons.mp hkmem with hke | hkt
          · omega
          · exact Nat.le_of_lt ((List.pairwise_cons.mp hp).1 k hkt)
        have hup : e1.1 >>> s ≤ k >>> s := shiftRight_mono s h1k
        have hlo : k0 >>> s ≤ e1.1 >>> s := shiftRight_mono s (Nat.le_of_lt h01)
        omega
      have hch' : List.Chain' (· < ·) (t.map Prod.fst) := by
        simpa using (List.Chain'.tail (by simpa using hch))
      have := ih (rest) k o hch' hm' hhead'
      have hcond : ¬ (k0 >>> s ≠ k >>> s) := by rw [hpre]; simp
      have hstep : scanB s k (k0 :: o0 :: (pairJoin t ++ rest)) =
          if k0 >>> s ≠ k >>> s then some none
          else if k0 = k then some (some o0) else scanB s k (pairJoin t ++ rest) := rfl
      rw [hstep, if_neg hcond, if_neg hk]
      exact this

theorem get?_of_drop_eq_cons :
    ∀ {l : List Nat} {n a : Nat} {t : List Nat}, l.drop n = a :: t → l.get? n = some a := by
  intro l
  induction l with
  | nil => intro n a t h; simp at h
  | cons b l' ih =>
    intro n a t h
    cases n with
    | zero => simp at h; simp [h.1]
    | succ n' => exact ih (by simpa using h)

theorem fileDir_length (start : Nat) (rs : List Rec) : (fileDir start rs).length = rs.length :=
  mkDir_length _ _

theorem flatten_recWords_drop (l1 : List Rec) (r : Rec) (l2 : List Rec) :
    (((l1 ++ r :: l2).map recWords).flatten).drop (sizeSum l1) =
      recWords r ++ (l2.map recWords).flatten := by
  rw [List.map_append, List.flatten_append]
  have hlen : ((l1.map recWords).flatten).length = sizeSum l1 := by
    rw [List.length_flatten, List.map_map]
    unfold sizeSum
    rw [show (List.length ∘ recWords) = recSize from funext recWords_length]
  rw [List.drop_left' hlen]
  simp

theorem body_drop_recIdx (start : Nat) (l1 : List Rec) (r : Rec) (l2 : List Rec) :
    (bodyWords start (l1 ++ r :: l2)).drop (2 * (l1 ++ r :: l2).length + sizeSum l1) =
      recWords r ++ (l2.map recWords).flatten := by
  unfold bodyWords
  have h1 : (pairJoin (fileDir start (l1 ++ r :: l2))).length = 2 * (l1 ++ r :: l2).length := by
    rw [pairJoin_length, fileDir_length]
  rw [show 2 * (l1 ++ r :: l2).length + sizeSum l1 =
      (pairJoin (fileDir start (l1 ++ r :: l2))).length + sizeSum l1 from by rw [h1]]
  rw [← List.drop_drop, List.drop_left]
  exact flatten_recWords_drop l1 r l2

theorem fileDir_mem (start : Nat) (l1 : List Rec) (r : Rec) (l2 : List Rec) :
    (r.key, dirStart start (l1 ++ r :: l2) + 8 * sizeSum l1) ∈ fileDir start (l1 ++ r :: l2) := by
  unfold fileDir
  rw [mkDir_append]
  apply List.mem_append_right
  show _ ∈ (r.key, _) :: _
  exact List.mem_cons_self _ _

/-- Reading the record of `r` once the seek has landed on its `caplen` word:
length 0 yields the empty found result without touching the cache, a positive
length yields the stored values and caches them. -/
theorem getFromBacking_found (start : Nat) (l1 : List Rec) (r : Rec) (l2 : List Rec)
    (m : MState) (hstart : m.start = start)
    (hbody : m.body = bodyWords start (l1 ++ r :: l2))
    (hcap : recCap r < U32)
    (hseek : seekToBackingPositionM m r.key =
      some (some (dirStart start (l1 ++ r :: l2) + 8 * sizeSum l1))) :
    getFromBackingM m r.key =
      some ((r.vals, true),
        if r.vals.length = 0 then m.cache else cacheAdd m.cache r.key r.vals) := by
  have hlv : r.vals.length < U32 := by
    have : r.vals.length ≤ recCap r := Nat.le_add_right _ _
    omega
  set p := dirStart start (l1 ++ r :: l2) + 8 * sizeSum l1 with hp
  set w := 2 * (l1 ++ r :: l2).length + sizeSum l1 with hwdef
  have hps : p - m.start = 8 * w := by
    rw [hstart, hp, hwdef]
    unfold dirStart
    ring_nf
    omega
  have hple : m.start ≤ p := by rw [hstart, hp]; unfold dirStart; omega
  have hdropw : m.body.drop w = recWords r ++ (l2.map recWords).flatten := by
    rw [hbody]; exact body_drop_recIdx start l1 r l2
  have hget : m.body.get? w = some (mkCaplen (recCap r) r.vals.length) := by
    apply get?_of_drop_eq_cons
    rw [hdropw]
    rfl
  have hword : wordAt m p = some (mkCaplen (recCap r) r.vals.length) := by
    unfold wordAt
    rw [if_pos ⟨hple, by omega⟩]
    rw [show (p - m.start) / 8 = w from by omega]
    exact hget
  have hlo : mkCaplen (recCap r) r.vals.length % U32 = r.vals.length :=
    mkCaplen_lo _ _ hlv
  unfold getFromBackingM
  rw [hseek]
  simp only [hword, hlo]
  by_cases h0 : r.vals.length = 0
  · rw [if_pos h0]
    have : r.vals = [] := List.length_eq_zero.mp h0
    rw [if_pos h0, this]
  · rw [if_neg h0, if_neg h0]
    have hws : m.body.drop ((p - m.start) / 8 + 1) =
        r.vals ++ (r.extra ++ (l2.map recWords).flatten) := by
      rw [show (p - m.start) / 8 + 1 = w + 1 from by omega]
      rw [show w + 1 = w + 1 from rfl]
      calc m.body.drop (w + 1) = (m.body.drop w).drop 1 := by rw [List.drop_drop]
        _ = (recWords r ++ (l2.map recWords).flatten).drop 1 := by rw [hdropw]
        _ = r.vals ++ (r.extra ++ (l2.map recWords).flatten) := by
            unfold recWords
            simp
    rw [hws]
    have hlenle : r.vals.length ≤ (r.vals ++ (r.extra ++ (l2.map recWords).flatten)).length := by
      simp
    rw [if_pos hlenle]
    rw [List.take_left' rfl]

/-- C1: on every file in the exact-mode on-disk format with an ascending
directory, a map opened with shift `s > 0` retrieves every stored key's
values with `found = true` (the scan seeks to the bucket's first table index
and walks `(key, offset)` pairs), and every key whose truncated prefix
`key >> s` appears in no directory entry returns `found = false`. -/
theorem c1_shifted_get (start s : Nat) (rs : List Rec) (hs : s ≠ 0)
    (hasc : Ascending rs) (hsz : SizesOK rs) :
    ∃ m, openM start rs s = some m ∧
      (∀ l1 r l2, rs = l1 ++ r :: l2 →
        (mapGetM m r.key).map Prod.fst = some (r.vals, true)) ∧
      (∀ k, (∀ r ∈ rs, r.key >>> s ≠ k >>> s) →
        (mapGetM m k).map Prod.fst = some ([], false)) := by
  have hchdir : List.Chain' (· < ·) ((fileDir start rs).map Prod.fst) := by
    unfold fileDir; rw [mkDir_map_fst]; exact hasc
  obtain ⟨res, hres, hlook⟩ :=
    buildOffsetsGo_shift s hs (fileDir start rs) 0 0 [] hchdir (fun e t _ => Nat.zero_le _)
  have hopen : openM start rs s = some ⟨start, bodyWords start rs, res, s, []⟩ := by
    unfold openM; rw [hres]; rfl
  refine ⟨⟨start, bodyWords start rs, res, s, []⟩, hopen, ?_, ?_⟩
  · intro l1 r l2 hrs
    subst hrs
    have hmemk : r.key ∈ (fileDir start (l1 ++ r :: l2)).map Prod.fst := by
      unfold fileDir; rw [mkDir_map_fst]
      exact List.mem_map.mpr ⟨r, by simp, rfl⟩
    obtain ⟨i, hfi⟩ := Option.isSome_iff_exists.mp
      (firstPrefixIdx_isSome_of_mem s (fileDir start (l1 ++ r :: l2)) r.key hmemk)
    have hlookup : lookupA res (r.key >>> s) = some i := by
      rw [hlook (r.key >>> s), hfi]
      simp [lookupA, oOr]
    obtain ⟨hile, e0, t0, hdrop0, hpre0⟩ :=
      firstPrefixIdx_drop s (r.key >>> s) (fileDir start (l1 ++ r :: l2)) i hfi
    have hmem2 : (r.key, dirStart start (l1 ++ r :: l2) + 8 * sizeSum l1) ∈
        (fileDir start (l1 ++ r :: l2)).drop i :=
      mem_drop_firstPrefixIdx s _ r.key _ i (fileDir_mem start l1 r l2) hfi
    have hch2 : List.Chain' (· < ·) (((fileDir start (l1 ++ r :: l2)).drop i).map Prod.fst) := by
      rw [List.map_drop]
      exact List.Chain'.drop hchdir i
    have hhead2 : ∀ e t, (fileDir start (l1 ++ r :: l2)).drop i = e :: t →
        e.1 >>> s = r.key >>> s := by
      intro e t he
      rw [he] at hdrop0
      injection hdrop0 with h1 h2
      rw [h1]
      exact hpre0
    have hdropbody : (bodyWords start (l1 ++ r :: l2)).drop (i * 2) =
        pairJoin ((fileDir start (l1 ++ r :: l2)).drop i) ++
          ((l1 ++ r :: l2).map recWords).flatten := by
      unfold bodyWords
      rw [show i * 2 = 2 * i from by ring]
      exact pairJoin_drop i _ _ hile
    have hscan : scanB s r.key ((bodyWords start (l1 ++ r :: l2)).drop (i * 2)) =
        some (some (dirStart start (l1 ++ r :: l2) + 8 * sizeSum l1)) := by
      rw [hdropbody]
      exact scanB_finds s _ _ r.key _ hch2 hmem2 hhead2
    have hoffne : ¬ (dirStart start (l1 ++ r :: l2) + 8 * sizeSum l1 = 0) := by
      unfold dirStart
      simp only [List.length_append, List.length_cons]
      omega
    have hseek : seekToBackingPositionM ⟨start, bodyWords start (l1 ++ r :: l2), res, s, []⟩
        r.key = some (some (dirStart start (l1 ++ r :: l2) + 8 * sizeSum l1)) := by
      unfold seekToBackingPositionM
      rw [show (⟨start, bodyWords start (l1 ++ r :: l2), res, s, []⟩ : MState).offsets = res
        from rfl]
      rw [show (⟨start, bodyWords start (l1 ++ r :: l2), res, s, []⟩ : MState).shiftkey = s
        from rfl]
      rw [hlookup]
      simp only [if_neg hs]
      rw [hscan]
      simp only [if_neg hoffne]
    have hget := getFromBacking_found start l1 r l2
      ⟨start, bodyWords start (l1 ++ r :: l2), res, s, []⟩ rfl rfl
      (hsz r (by simp)) hseek
    show (getFromBackingM ⟨start, bodyWords start (l1 ++ r :: l2), res, s, []⟩ r.key).map
      Prod.fst = some (r.vals, true)
    rw [hget]
    rfl
  · intro k hk
    have hnone : lookupA res (k >>> s) = none := by
      rw [hlook (k >>> s)]
      rw [firstPrefixIdx_eq_none s (k >>> s) (fileDir start rs) ?_]
      · rfl
      · intro e he
        have hmem : e.1 ∈ (fileDir start rs).map Prod.fst := List.mem_map_of_mem _ he
        rw [show (fileDir start rs).map Prod.fst = rs.map Rec.key from by
          unfold fileDir; exact mkDir_map_fst _ _] at hmem
        obtain ⟨r, hr, hrk⟩ := List.mem_map.mp hmem
        rw [← hrk]
        exact hk r hr
    show (getFromBackingM ⟨start, bodyWords start rs, res, s, []⟩ k).map Prod.fst =
      some ([], false)
    unfold getFromBackingM seekToBackingPositionM
    rw [show (⟨start, bodyWords start rs, res, s, []⟩ : MState).offsets = res from rfl]
    rw [show (⟨start, bodyWords start rs, res, s, []⟩ : MState).shiftkey = s from rfl]
    rw [hnone]
    rfl

/-- C1 witness: the theorem applied to a concrete two-record exact file
opened with shift 1. -/
theorem c1_shifted_get_witness :
    ((1 : Nat) ≠ 0 ∧ Ascending ([⟨5, [10, 20], []⟩, ⟨9, [7], [0]⟩] : List Rec) ∧
      SizesOK ([⟨5, [10, 20], []⟩, ⟨9, [7], [0]⟩] : List Rec)) ∧
    (∃ m, openM 16 ([⟨5, [10, 20], []⟩, ⟨9, [7], [0]⟩] : List Rec) 1 = some m ∧
      (∀ (l1 : List Rec) (r : Rec) (l2 : List Rec),
        ([⟨5, [10, 20], []⟩, ⟨9, [7], [0]⟩] : List Rec) = l1 ++ r :: l2 →
        (mapGetM m r.key).map Prod.fst = some (r.vals, true)) ∧
      (∀ k, (∀ r ∈ ([⟨5, [10, 20], []⟩, ⟨9, [7], [0]⟩] : List Rec), Rec.key r >>> 1 ≠ k >>> 1) →
        (mapGetM m k).map Prod.fst = some ([], false))) :=
  ⟨⟨by decide, by unfold Ascending; simp, by unfold SizesOK; decide⟩,
    c1_shifted_get 16 1 ([⟨5, [10, 20], []⟩, ⟨9, [7], [0]⟩] : List Rec) (by decide)
      (by unfold Ascending; simp) (by unfold SizesOK; decide)⟩

/-- C7: a file whose on-disk directory holds the adjacent descending key pair
(4, 3) is accepted by `NewShifted` with shift 1: the check compares each raw
key against the *truncated* key of its predecessor (`lastkey` is assigned
after `key >>= shift`), so `3 < 4 >> 1` is false and the not-sorted panic
never fires, even though the directory is unsorted.  The claim says the
construction must fail on every such file. -/
theorem c7_unsorted_accepted :
    (openM 16 [⟨4, [1], []⟩, ⟨3, [2], []⟩] 1).isSome = true := by decide

/-- C3: the pairwise set algebra is claimed to compute exact set results for
all sorted duplicate-free inputs; the difference merge instead panics with an
index out of range as soon as `v2` holds an element larger than every element
of `v1`.  At `v1 = [1]`, `v2 = [2]` the claimed result is `[1]`, but the code
reads `v1[1]` past the end of `v1`. -/
theorem c3_difference_panics : diffMerge [1] [2] = none := by
  simp [diffMerge]

/-- C4: the set-algebra functions are claimed total, including the case of an
empty (or exhausted) first sequence; `Difference` on first sequence `[]` and
second sequence `[5]` immediately indexes `v1[0]` out of range. -/
theorem c4_difference_not_total : diffMerge [] [5] = none := by
  simp [diffMerge]

/-- C8 counterexample: `DefaultPacker` does not return a reserved capacity for
every `valsize`; at `valsize = 2^32 - 40` the `uint32` computation wraps to 0
and the function panics with "size mismatch" instead of returning. -/
theorem c8_defaultPacker_panics : DefaultPackerM 4294967256 = none := by
  decide

/-- C8 amended: for every valsize with `valsize + 40 < 2^32` (so that the
`uint32` arithmetic does not wrap), `DefaultPacker` returns the least multiple
of `DefaultCapacity = 32` strictly greater than `valsize + (32 - 24)` as the
reserved capacity, together with `(capacity - valsize) * 8` bytes of zero
padding; for every larger `uint32` valsize it panics. -/
theorem c8_defaultPacker_spec (v : Nat) (hv : v + 40 < U32) :
    DefaultPackerM v = some (nextCap32 v, (nextCap32 v - v) * 8) ∧
    nextCap32 v % 32 = 0 ∧
    v + 8 < nextCap32 v ∧
    (∀ c, c % 32 = 0 → v + 8 < c → nextCap32 v ≤ c) ∧
    (∀ w, U32 - 40 ≤ w → w < U32 → DefaultPackerM w = none) := by
  simp only [U32] at hv
  refine ⟨?_, ?_, ?_, ?_, ?_⟩
  · simp only [DefaultPackerM, DefaultCapacity, FillFactor, U32]
    have e1 : (v + (32 - 24)) % 4294967296 = v + 8 := by omega
    rw [e1]
    have e2 : 32 * (1 + (v + 8) / 32) % 4294967296 = 32 * (1 + (v + 8) / 32) := by omega
    rw [e2]
    rw [if_neg (by omega)]
    have e3 : (32 * (1 + (v + 8) / 32) - v) * 8 % 4294967296 =
        (32 * (1 + (v + 8) / 32) - v) * 8 := by omega
    rw [e3]
    rfl
  · simp only [nextCap32]; omega
  · simp only [nextCap32]; omega
  · intro c hc hvc
    simp only [nextCap32]
    omega
  · intro w hw hwU
    simp only [U32] at hw hwU
    simp only [DefaultPackerM, DefaultCapacity, FillFactor, U32]
    by_cases hwrap : w + 8 < 4294967296
    · have e1 : (w + (32 - 24)) % 4294967296 = w + 8 := by omega
      rw [e1]
      have e2 : (w + 8) / 32 = 134217727 := by omega
      rw [e2]
      have e3 : 32 * (1 + 134217727) % 4294967296 = 0 := by norm_num
      rw [e3]
      rw [if_pos (by omega)]
    · have e1 : (w + (32 - 24)) % 4294967296 = w + 8 - 4294967296 := by omega
      rw [e1]
      have e2 : (w + 8 - 4294967296) / 32 = 0 := by omega
      rw [e2]
      have e3 : 32 * (1 + 0) % 4294967296 = 32 := by norm_num
      rw [e3]
      rw [if_pos (by omega)]

/-- C8 witness: the amended packer theorem at `valsize = 5`: capacity 32 and
216 bytes of padding. -/
theorem c8_defaultPacker_spec_witness :
    5 + 40 < U32 ∧ DefaultPackerM 5 = some (nextCap32 5, (nextCap32 5 - 5) * 8) :=
  ⟨by decide, (c8_defaultPacker_spec 5 (by decide)).1⟩

/-! ### Exact-mode opening and seeking -/

theorem openM_zero (start : Nat) (rs : List Rec) :
    openM start rs 0 =
      some ⟨start, bodyWords start rs, (fileDir start rs).reverse, 0, []⟩ := by
  unfold openM
  rw [buildOffsetsGo_zero]
  simp

theorem fileDir_nodup (start : Nat) (rs : List Rec) (hasc : Ascending rs) :
    ((fileDir start rs).map Prod.fst).Nodup := by
  unfold fileDir
  rw [mkDir_map_fst]
  exact nodup_of_chain_lt hasc

theorem lookupA_fileDir_reverse (start : Nat) (l1 : List Rec) (r : Rec) (l2 : List Rec)
    (hasc : Ascending (l1 ++ r :: l2)) :
    lookupA (fileDir start (l1 ++ r :: l2)).reverse r.key =
      some (dirStart start (l1 ++ r :: l2) + 8 * sizeSum l1) := by
  apply lookupA_of_mem
  · exact List.mem_reverse.mpr (fileDir_mem start l1 r l2)
  · rw [List.map_reverse]
    exact (List.nodup_reverse).mpr (fileDir_nodup start _ hasc)

theorem seek_exact_found (start : Nat) (l1 : List Rec) (r : Rec) (l2 : List Rec)
    (hasc : Ascending (l1 ++ r :: l2)) (m : MState)
    (hoff : m.offsets = (fileDir start (l1 ++ r :: l2)).reverse)
    (hshift : m.shiftkey = 0) :
    seekToBackingPositionM m r.key =
      some (some (dirStart start (l1 ++ r :: l2) + 8 * sizeSum l1)) := by
  unfold seekToBackingPositionM
  rw [hshift, Nat.shiftRight_zero, hoff, lookupA_fileDir_reverse start l1 r l2 hasc]
  rfl

theorem seek_exact_miss (start : Nat) (rs : List Rec) (k : Nat)
    (hk : k ∉ rs.map Rec.key) (m : MState)
    (hoff : m.offsets = (fileDir start rs).reverse)
    (hshift : m.shiftkey = 0) :
    seekToBackingPositionM m k = some none := by
  unfold seekToBackingPositionM
  rw [hshift, Nat.shiftRight_zero, hoff]
  rw [lookupA_eq_none]
  rw [List.map_reverse, List.mem_reverse]
  rw [show (fileDir start rs).map Prod.fst = rs.map Rec.key from by
    unfold fileDir; exact mkDir_map_fst _ _]
  exact hk

/-- C10: every key whose record has stored length 0 is returned by `Get` as
an empty slice with `found = true`, and the empty result is not inserted into
the read cache; a key with positive length is returned and cached. -/
theorem c10_zero_length_get (start : Nat) (rs : List Rec)
    (hasc : Ascending rs) (hsz : SizesOK rs) :
    ∃ m, openM start rs 0 = some m ∧ m.cache = [] ∧
      ∀ l1 r l2, rs = l1 ++ r :: l2 →
        (r.vals = [] → mapGetM m r.key = some (([], true), m.cache)) ∧
        (r.vals ≠ [] → mapGetM m r.key = some ((r.vals, true), cacheAdd m.cache r.key r.vals)) := by
  refine ⟨⟨start, bodyWords start rs, (fileDir start rs).reverse, 0, []⟩,
    openM_zero start rs, rfl, ?_⟩
  intro l1 r l2 hrs
  subst hrs
  have hseek := seek_exact_found start l1 r l2 hasc
    ⟨start, bodyWords start (l1 ++ r :: l2), (fileDir start (l1 ++ r :: l2)).reverse, 0, []⟩
    rfl rfl
  have hget := getFromBacking_found start l1 r l2
    ⟨start, bodyWords start (l1 ++ r :: l2), (fileDir start (l1 ++ r :: l2)).reverse, 0, []⟩
    rfl rfl (hsz r (by simp)) hseek
  constructor
  · intro h0
    show getFromBackingM _ r.key = _
    rw [hget, h0]
    rfl
  · intro h0
    show getFromBackingM _ r.key = _
    rw [hget]
    rw [if_neg (fun hl => h0 (List.length_eq_zero.mp hl))]

/-! ### The memory-mapped reader agrees with the standard reader -/

theorem mem_mkDir_decomp :
    ∀ (pos : Nat) (rs : List Rec) (e : Nat × Nat), e ∈ mkDir pos rs →
      ∃ l1 r l2, rs = l1 ++ r :: l2 ∧ e = (r.key, pos + 8 * sizeSum l1) := by
  intro pos rs
  induction rs generalizing pos with
  | nil => intro e he; cases he
  | cons r t ih =>
    intro e he
    rcases List.mem_cons.mp he with he0 | het
    · exact ⟨[], r, t, rfl, by rw [he0]; simp [sizeSum_nil]⟩
    · obtain ⟨l1, r1, l2, ht, hepos⟩ := ih (pos + 8 * recSize r) e het
      refine ⟨r :: l1, r1, l2, by rw [ht]; simp, ?_⟩
      rw [hepos, sizeSum_cons]
      have : pos + 8 * recSize r + 8 * sizeSum l1 = pos + 8 * (recSize r + sizeSum l1) := by
        ring
      rw [this]

/-- The body of the `MMap` loop succeeds on every record of a well-formed
file and its value view is exactly the stored values. -/
theorem mmapNodeAt_found (start : Nat) (l1 : List Rec) (r : Rec) (l2 : List Rec)
    (m : MState) (hstart : m.start = start)
    (hbody : m.body = bodyWords start (l1 ++ r :: l2)) (hc8 : 8 * recCap r < U32) :
    ∃ ex, mmapNodeAt m (dirStart start (l1 ++ r :: l2) + 8 * sizeSum l1) =
      some (r.vals, ex) := by
  have hcap : recCap r < U32 := by omega
  have hlv : r.vals.length < U32 := by
    have : r.vals.length ≤ recCap r := Nat.le_add_right _ _
    omega
  have hlw : r.vals.length * 8 % U32 / 8 = r.vals.length := by
    have h1 : r.vals.length ≤ recCap r := Nat.le_add_right _ _
    rw [Nat.mod_eq_of_lt (by omega)]
    omega
  have hcw : recCap r * 8 % U32 / 8 = recCap r := by
    rw [Nat.mod_eq_of_lt (by omega)]
    omega
  set p := dirStart start (l1 ++ r :: l2) + 8 * sizeSum l1 with hp
  set w := 2 * (l1 ++ r :: l2).length + sizeSum l1 with hwdef
  have hps : p - m.start = 8 * w := by
    rw [hstart, hp, hwdef]
    unfold dirStart
    ring_nf
    omega
  have hple : m.start ≤ p := by rw [hstart, hp]; unfold dirStart; omega
  have hdropw : m.body.drop w = recWords r ++ (l2.map recWords).flatten := by
    rw [hbody]; exact body_drop_recIdx start l1 r l2
  have hword : wordAt m p = some (mkCaplen (recCap r) r.vals.length) := by
    unfold wordAt
    rw [if_pos ⟨hple, by omega⟩]
    rw [show (p - m.start) / 8 = w from by omega]
    apply get?_of_drop_eq_cons
    rw [hdropw]
    rfl
  have hws : m.body.drop ((p - m.start) / 8 + 1) =
      r.vals ++ (r.extra ++ (l2.map recWords).flatten) := by
    rw [show (p - m.start) / 8 + 1 = w + 1 from by omega]
    calc m.body.drop (w + 1) = (m.body.drop w).drop 1 := by rw [List.drop_drop]
      _ = (recWords r ++ (l2.map recWords).flatten).drop 1 := by rw [hdropw]
      _ = r.vals ++ (r.extra ++ (l2.map recWords).flatten) := by
          unfold recWords
          simp
  have hlo : mkCaplen (recCap r) r.vals.length % U32 = r.vals.length :=
    mkCaplen_lo _ _ hlv
  have hhi : (mkCaplen (recCap r) r.vals.length >>> 32) % U32 = recCap r :=
    mkCaplen_hi _ _ hlv hcap
  unfold mmapNodeAt
  rw [hword]
  simp only [hlo, hhi, hws, hlw, hcw]
  have hwslen : r.vals.length ≤ (r.vals ++ (r.extra ++ (l2.map recWords).flatten)).length := by
    simp
  rw [if_pos hwslen]
  by_cases hex : r.extra.length = 0
  · have hceq : recCap r = r.vals.length := by unfold recCap; omega
    rw [if_pos hceq, List.take_left' rfl]
    exact ⟨[], rfl⟩
  · have hcne : ¬ recCap r = r.vals.length := by unfold recCap; omega
    rw [if_neg hcne]
    have hcond : r.vals.length ≤ recCap r ∧
        recCap r ≤ (r.vals ++ (r.extra ++ (l2.map recWords).flatten)).length := by
      constructor
      · exact Nat.le_add_right _ _
      · unfold recCap
        simp only [List.length_append]
        omega
    rw [if_pos hcond, List.take_left' rfl]
    exact ⟨_, rfl⟩

/-- When every per-key slice succeeds, the `MMap` loop yields a node table
whose lookup composes the offsets lookup with the record read. -/
theorem mmapBuildList_spec (m : MState) :
    ∀ (l : List (Nat × Nat)),
      (∀ e ∈ l, (mmapNodeAt m e.2).isSome = true) →
      ∃ nodes, mmapBuildList m l = some nodes ∧
        ∀ k, lookupA nodes k = (lookupA l k).bind (fun off => mmapNodeAt m off) := by
  intro l
  induction l with
  | nil => exact fun _ => ⟨[], rfl, fun k => rfl⟩
  | cons e t ih =>
    intro hall
    obtain ⟨k0, off0⟩ := e
    obtain ⟨nv, hnv⟩ := Option.isSome_iff_exists.mp (hall (k0, off0) (List.mem_cons_self _ _))
    obtain ⟨rest, hrest, hlookup⟩ := ih (fun e he => hall e (List.mem_cons_of_mem _ he))
    refine ⟨(k0, nv) :: rest, ?_, ?_⟩
    · unfold mmapBuildList
      rw [hnv, hrest]
    · intro k
      by_cases hk : k0 = k
      · subst hk
        simp [lookupA, hnv]
      · simp [lookupA, if_neg hk, hlookup k]

/-- C9 amended: over every file in the map format whose record capacities
stay below 2^29 — so that the source's uint32 slice-bound multiplications
`uint32(caplen)*8` and `uint32(caplen>>32)*8` cannot wrap — the reader
built by `MMap` returns from `Get` exactly the values and found flag the
standard seek-and-read reader returns; at capacity 2^29 and beyond the two
readers diverge (see the counterexample). -/
theorem c9_mmap_equiv (start : Nat) (rs : List Rec)
    (hasc : Ascending rs) (hsmall : ∀ r ∈ rs, 8 * recCap r < U32) :
    ∃ m nodes, openM start rs 0 = some m ∧ mmapBuildList m m.offsets = some nodes ∧
      ∀ k, (mapGetM m k).map Prod.fst = some (memMapGet nodes k) := by
  have hsz : SizesOK rs := by
    unfold SizesOK
    intro r hr
    have := hsmall r hr
    omega
  have hall : ∀ e ∈ (fileDir start rs).reverse,
      (mmapNodeAt ⟨start, bodyWords start rs, (fileDir start rs).reverse, 0, []⟩
        e.2).isSome = true := by
    intro e he
    obtain ⟨l1, r, l2, hrs, hepos⟩ :=
      mem_mkDir_decomp (dirStart start rs) rs e (List.mem_reverse.mp he)
    simp only [hepos]
    rw [show dirStart start rs + 8 * sizeSum l1 =
      dirStart start (l1 ++ r :: l2) + 8 * sizeSum l1 from by rw [← hrs]]
    obtain ⟨ex, hex⟩ := mmapNodeAt_found start l1 r l2
      ⟨start, bodyWords start rs, (fileDir start rs).reverse, 0, []⟩ rfl
      (by rw [hrs]) (hsmall r (by rw [hrs]; simp))
    rw [hex]
    rfl
  obtain ⟨nodes, hnodes, hlookup⟩ :=
    mmapBuildList_spec ⟨start, bodyWords start rs, (fileDir start rs).reverse, 0, []⟩
      ((fileDir start rs).reverse) hall
  refine ⟨⟨start, bodyWords start rs, (fileDir start rs).reverse, 0, []⟩, nodes,
    openM_zero start rs, hnodes, ?_⟩
  intro k
  by_cases hk : k ∈ rs.map Rec.key
  · obtain ⟨r, hr, hrk⟩ := List.mem_map.mp hk
    obtain ⟨l1, l2, hrs⟩ := List.append_of_mem hr
    subst hrk
    subst hrs
    have hseek := seek_exact_found start l1 r l2 hasc
      ⟨start, bodyWords start (l1 ++ r :: l2),
        (fileDir start (l1 ++ r :: l2)).reverse, 0, []⟩ rfl rfl
    have hget := getFromBacking_found start l1 r l2
      ⟨start, bodyWords start (l1 ++ r :: l2),
        (fileDir start (l1 ++ r :: l2)).reverse, 0, []⟩ rfl rfl (hsz r hr) hseek
    obtain ⟨ex, hex⟩ := mmapNodeAt_found start l1 r l2
      ⟨start, bodyWords start (l1 ++ r :: l2),
        (fileDir start (l1 ++ r :: l2)).reverse, 0, []⟩ rfl rfl (hsmall r hr)
    have hnl : lookupA nodes r.key = some (r.vals, ex) := by
      rw [hlookup r.key, lookupA_fileDir_reverse start l1 r l2 hasc]
      exact hex
    show (getFromBackingM ⟨start, bodyWords start (l1 ++ r :: l2),
      (fileDir start (l1 ++ r :: l2)).reverse, 0, []⟩ r.key).map Prod.fst =
      some (memMapGet nodes r.key)
    rw [hget]
    unfold memMapGet
    rw [hnl]
    rfl
  · have hseek := seek_exact_miss start rs k hk
      ⟨start, bodyWords start rs, (fileDir start rs).reverse, 0, []⟩ rfl rfl
    have hnl : lookupA nodes k = none := by
      rw [hlookup k]
      rw [lookupA_eq_none _ k ?_]
      · rfl
      · rw [List.map_reverse, List.mem_reverse]
        rw [show (fileDir start rs).map Prod.fst = rs.map Rec.key from by
          unfold fileDir; exact mkDir_map_fst _ _]
        exact hk
    show (getFromBackingM ⟨start, bodyWords start rs,
      (fileDir start rs).reverse, 0, []⟩ k).map Prod.fst = some (memMapGet nodes k)
    unfold getFromBackingM
    rw [hseek]
    unfold memMapGet
    rw [hnl]
    rfl

/-- C9 witness: the amended equivalence on a concrete two-record file,
including a record with reserved tail slots. -/
theorem c9_mmap_equiv_witness :
    (Ascending ([⟨5, [10, 20], []⟩, ⟨9, [7], [0]⟩] : List Rec) ∧
      (∀ r ∈ ([⟨5, [10, 20], []⟩, ⟨9, [7], [0]⟩] : List Rec), 8 * recCap r < U32)) ∧
    (∃ m nodes, openM 16 ([⟨5, [10, 20], []⟩, ⟨9, [7], [0]⟩] : List Rec) 0 = some m ∧
      mmapBuildList m m.offsets = some nodes ∧
      ∀ k, (mapGetM m k).map Prod.fst = some (memMapGet nodes k)) :=
  ⟨⟨by unfold Ascending; simp, by decide⟩,
    c9_mmap_equiv 16 ([⟨5, [10, 20], []⟩, ⟨9, [7], [0]⟩] : List Rec)
      (by unfold Ascending; simp) (by decide)⟩

/-! ### Word writes against the file image -/

theorem set_append_cons : ∀ (A : List Nat) (b : Nat) (C : List Nat) (w : Nat),
    (A ++ b :: C).set A.length w = A ++ w :: C := by
  intro A
  induction A with
  | nil => intro b C w; rfl
  | cons a A ih =>
    intro b C w
    simp only [List.cons_append, List.length_cons, List.set_cons_succ]
    rw [ih]

theorem writeWord_at (A : List Nat) (b : Nat) (C : List Nat) (w : Nat) :
    writeWord (A ++ b :: C) A.length w = A ++ w :: C := by
  unfold writeWord
  rw [if_pos (by simp)]
  exact set_append_cons A b C w

theorem writeWords_fill :
    ∀ (v : List Nat) (A B C : List Nat), v.length ≤ B.length →
      writeWords (A ++ (B ++ C)) A.length v = A ++ ((v ++ B.drop v.length) ++ C) := by
  intro v
  induction v with
  | nil => intro A B C _; simp [writeWords]
  | cons x v ih =>
    intro A B C h
    match B with
    | [] => simp at h
    | b :: B =>
      show writeWords (writeWord (A ++ (b :: B ++ C)) A.length x) (A.length + 1)
        v = _
      rw [show A ++ (b :: B ++ C) = A ++ b :: (B ++ C) from by simp]
      rw [writeWord_at]
      rw [show A ++ x :: (B ++ C) = (A ++ [x]) ++ (B ++ C) from by simp]
      rw [show A.length + 1 = (A ++ [x]).length from by simp]
      rw [ih (A ++ [x]) B C (by simpa using h)]
      simp

/-! ### Record-level rewriting of the image -/

theorem flatten_recWords_length (l1 : List Rec) :
    ((l1.map recWords).flatten).length = sizeSum l1 := by
  rw [List.length_flatten, List.map_map]
  unfold sizeSum
  rw [show (List.length ∘ recWords) = recSize from funext recWords_length]

theorem bodyWords_decomp (start : Nat) (l1 : List Rec) (r : Rec) (l2 : List Rec) :
    bodyWords start (l1 ++ r :: l2) =
      (pairJoin (fileDir start (l1 ++ r :: l2)) ++ (l1.map recWords).flatten) ++
        (recWords r ++ (l2.map recWords).flatten) := by
  unfold bodyWords
  rw [List.map_append, List.flatten_append]
  simp

theorem bodyWords_decomp_len (start : Nat) (l1 : List Rec) (r : Rec) (l2 : List Rec) :
    (pairJoin (fileDir start (l1 ++ r :: l2)) ++ (l1.map recWords).flatten).length =
      2 * (l1 ++ r :: l2).length + sizeSum l1 := by
  rw [List.length_append, pairJoin_length, fileDir_length, flatten_recWords_length]

theorem mkDir_congr : ∀ (pos : Nat) (rs1 rs2 : List Rec),
    rs1.map Rec.key = rs2.map Rec.key → rs1.map recSize = rs2.map recSize →
    mkDir pos rs1 = mkDir pos rs2 := by
  intro pos rs1
  induction rs1 generalizing pos with
  | nil =>
    intro rs2 hk _
    match rs2 with
    | [] => rfl
    | _ :: _ => simp at hk
  | cons r t ih =>
    intro rs2 hk hs
    match rs2 with
    | [] => simp at hk
    | r2 :: t2 =>
      simp only [List.map_cons, List.cons.injEq] at hk hs
      unfold mkDir
      rw [hk.1, hs.1, ih (pos + 8 * recSize r2) t2 hk.2 hs.2]

theorem bodyWords_length (start : Nat) (rs : List Rec) :
    (bodyWords start rs).length = 2 * rs.length + sizeSum rs := by
  unfold bodyWords
  rw [List.length_append, pairJoin_length, fileDir_length, flatten_recWords_length]

/-! ### The record update performed by one in-place write -/

theorem applyOne_keys (rs : List Rec) (kv : Nat × List Nat) :
    (applyOne rs kv).map Rec.key = rs.map Rec.key := by
  unfold applyOne
  rw [List.map_map]
  apply List.map_congr_left
  intro r _
  by_cases h : r.key = kv.1 <;> simp [h]

theorem applyOne_skips :
    ∀ (l : List Rec) (kv : Nat × List Nat), (∀ x ∈ l, x.key ≠ kv.1) →
      l.map (fun r0 => if r0.key = kv.1
        then (⟨r0.key, kv.2, (r0.vals ++ r0.extra).drop kv.2.length⟩ : Rec) else r0) = l := by
  intro l kv hl
  induction l with
  | nil => rfl
  | cons a t ih =>
    simp only [List.map_cons]
    rw [if_neg (hl a (List.mem_cons_self _ _)),
      ih (fun x hx => hl x (List.mem_cons_of_mem _ hx))]

theorem applyOne_decomp (l1 : List Rec) (r : Rec) (l2 : List Rec) (kv : Nat × List Nat)
    (hk : r.key = kv.1) (hnd : ((l1 ++ r :: l2).map Rec.key).Nodup) :
    applyOne (l1 ++ r :: l2) kv =
      l1 ++ (⟨r.key, kv.2, (r.vals ++ r.extra).drop kv.2.length⟩ : Rec) :: l2 := by
  rw [List.map_append, List.map_cons] at hnd
  obtain ⟨hnd1, hnd2, hdisj⟩ := List.nodup_append.mp hnd
  have h1 : ∀ x ∈ l1, x.key ≠ kv.1 := by
    intro x hx hxk
    exact hdisj (List.mem_map.mpr ⟨x, hx, rfl⟩)
      (by rw [hxk, ← hk]; exact List.mem_cons_self _ _)
  have h2 : ∀ x ∈ l2, x.key ≠ kv.1 := by
    intro x hx hxk
    exact (List.nodup_cons.mp hnd2).1 (List.mem_map.mpr ⟨x, hx, hxk.trans hk.symm⟩)
  unfold applyOne
  rw [List.map_append, List.map_cons, if_pos hk, applyOne_skips l1 kv h1,
    applyOne_skips l2 kv h2]

theorem eq_of_key_eq_of_nodup (l1 : List Rec) (r : Rec) (l2 : List Rec)
    (hnd : ((l1 ++ r :: l2).map Rec.key).Nodup) (x : Rec) (hx : x ∈ l1 ++ r :: l2)
    (hk : x.key = r.key) : x = r := by
  rw [List.map_append, List.map_cons] at hnd
  obtain ⟨hnd1, hnd2, hdisj⟩ := List.nodup_append.mp hnd
  rcases List.mem_append.mp hx with h1 | h2
  · exact absurd (List.mem_cons_self r.key (l2.map Rec.key))
      (hdisj (hk ▸ List.mem_map.mpr ⟨x, h1, rfl⟩))
  · rcases List.mem_cons.mp h2 with he | ht
    · exact he
    · exact absurd (hk ▸ List.mem_map.mpr ⟨x, ht, rfl⟩) (List.nodup_cons.mp hnd2).1

theorem map_decomp {α β : Type} (f : α → β) :
    ∀ (rs : List α) (A : List β) (x : β) (B : List β), rs.map f = A ++ x :: B →
      ∃ A0 x0 B0, rs = A0 ++ x0 :: B0 ∧ A = A0.map f ∧ x = f x0 ∧ B = B0.map f := by
  intro rs
  induction rs with
  | nil =>
    intro A x B h
    rw [List.map_nil] at h
    exact absurd h (by simp)
  | cons r t ih =>
    intro A x B h
    rw [List.map_cons] at h
    match A, h with
    | [], h =>
      rw [List.nil_append] at h
      injection h with h1 h2
      exact ⟨[], r, t, rfl, rfl, h1.symm, h2.symm⟩
    | a :: A1, h =>
      rw [List.cons_append] at h
      injection h with h1 h2
      obtain ⟨A0, x0, B0, h3, h4, h5, h6⟩ := ih A1 x B h2
      exact ⟨r :: A0, x0, B0, by rw [h3]; simp, by rw [List.map_cons, ← h4, ← h1], h5, h6⟩

theorem wordAt_caplen (start : Nat) (l1 : List Rec) (r : Rec) (l2 : List Rec)
    (m : MState) (hstart : m.start = start)
    (hbody : m.body = bodyWords start (l1 ++ r :: l2)) :
    wordAt m (dirStart start (l1 ++ r :: l2) + 8 * sizeSum l1) =
      some (mkCaplen (recCap r) r.vals.length) := by
  set p := dirStart start (l1 ++ r :: l2) + 8 * sizeSum l1 with hp
  set w := 2 * (l1 ++ r :: l2).length + sizeSum l1 with hwdef
  have hps : p - m.start = 8 * w := by
    rw [hstart, hp, hwdef]
    unfold dirStart
    ring_nf
    omega
  have hple : m.start ≤ p := by rw [hstart, hp]; unfold dirStart; omega
  unfold wordAt
  rw [if_pos ⟨hple, by omega⟩]
  rw [show (p - m.start) / 8 = w from by omega]
  apply get?_of_drop_eq_cons
  rw [hbody, body_drop_recIdx start l1 r l2]
  rfl

/-- Rewriting a record's `caplen` word with its current value is the
identity on the image. -/
theorem writeWord_caplen_self (start : Nat) (l1 : List Rec) (r : Rec) (l2 : List Rec) :
    writeWord (bodyWords start (l1 ++ r :: l2)) (2 * (l1 ++ r :: l2).length + sizeSum l1)
      (mkCaplen (recCap r) r.vals.length) = bodyWords start (l1 ++ r :: l2) := by
  have hl := bodyWords_decomp_len start l1 r l2
  rw [bodyWords_decomp start l1 r l2]
  rw [show recWords r ++ (l2.map recWords).flatten =
    mkCaplen (recCap r) r.vals.length :: ((r.vals ++ r.extra) ++ (l2.map recWords).flatten)
    from by unfold recWords; simp]
  rw [← hl, writeWord_at]

/-- The two writes of one in-place iteration turn the record of `r` into the
record holding the new values over the old slot contents. -/
theorem inplace_step_body (start : Nat) (l1 : List Rec) (r : Rec) (l2 : List Rec)
    (v : List Nat) (hlen : v.length ≤ recCap r) :
    writeWords
      (writeWord (bodyWords start (l1 ++ r :: l2))
        (2 * (l1 ++ r :: l2).length + sizeSum l1) (mkCaplen (recCap r) v.length))
      (2 * (l1 ++ r :: l2).length + sizeSum l1 + 1) v =
      bodyWords start
        (l1 ++ (⟨r.key, v, (r.vals ++ r.extra).drop v.length⟩ : Rec) :: l2) := by
  have hl := bodyWords_decomp_len start l1 r l2
  have hlen2 : v.length ≤ r.vals.length + r.extra.length := by
    unfold recCap at hlen
    exact hlen
  have hslots : v.length ≤ (r.vals ++ r.extra).length := by
    simp only [List.length_append]
    omega
  rw [bodyWords_decomp start l1 r l2]
  rw [show recWords r ++ (l2.map recWords).flatten =
    mkCaplen (recCap r) r.vals.length :: ((r.vals ++ r.extra) ++ (l2.map recWords).flatten)
    from by unfold recWords; simp]
  rw [← hl, writeWord_at]
  rw [List.append_cons _ (mkCaplen (recCap r) v.length) _]
  rw [show (pairJoin (fileDir start (l1 ++ r :: l2)) ++ (l1.map recWords).flatten).length + 1 =
    ((pairJoin (fileDir start (l1 ++ r :: l2)) ++ (l1.map recWords).flatten) ++
      [mkCaplen (recCap r) v.length]).length from by simp; omega]
  rw [writeWords_fill v _ (r.vals ++ r.extra) _ hslots]
  have hkeys : (l1 ++ (⟨r.key, v, (r.vals ++ r.extra).drop v.length⟩ : Rec) :: l2).map Rec.key =
      (l1 ++ r :: l2).map Rec.key := by simp
  have hsizes : (l1 ++ (⟨r.key, v, (r.vals ++ r.extra).drop v.length⟩ : Rec) :: l2).map recSize =
      (l1 ++ r :: l2).map recSize := by
    simp only [List.map_append, List.map_cons]
    congr 2
    unfold recSize recCap
    simp only [List.length_drop, List.length_append]
    omega
  have hcap2 : recCap (⟨r.key, v, (r.vals ++ r.extra).drop v.length⟩ : Rec) = recCap r := by
    unfold recCap
    simp only [List.length_drop, List.length_append]
    omega
  rw [bodyWords_decomp start l1 _ l2]
  rw [show fileDir start (l1 ++ (⟨r.key, v, (r.vals ++ r.extra).drop v.length⟩ : Rec) :: l2) =
    fileDir start (l1 ++ r :: l2) from by
      unfold fileDir dirStart
      rw [show (l1 ++ (⟨r.key, v, (r.vals ++ r.extra).drop v.length⟩ : Rec) :: l2).length =
        (l1 ++ r :: l2).length from by simp]
      exact mkDir_congr _ _ _ hkeys hsizes]
  rw [show recWords (⟨r.key, v, (r.vals ++ r.extra).drop v.length⟩ : Rec) =
    mkCaplen (recCap r) v.length :: (v ++ (r.vals ++ r.extra).drop v.length) from by
      unfold recWords
      rw [hcap2]]
  simp

/-- The full phase-2 write pass: starting from the well-formed image, the
dirty entries are written record by record, producing exactly the image of
the updated record list. -/
theorem inplaceWrites_spec :
    ∀ (dirty : List (Nat × List Nat)) (start : Nat) (rs : List Rec)
      (offsets : List (Nat × Nat)) (cache : List (Nat × List Nat)),
      (rs.map Rec.key).Nodup →
      (∀ kv ∈ dirty, (kv.2 : List Nat).length < U32) →
      (∀ kv ∈ dirty, ∃ l1 r l2, rs = l1 ++ r :: l2 ∧ r.key = kv.1 ∧
        (kv.2 : List Nat).length ≤ recCap r) →
      SizesOK rs →
      (∀ l1 r l2, rs = l1 ++ r :: l2 →
        lookupA offsets r.key = some (dirStart start rs + 8 * sizeSum l1)) →
      inplaceWrites ⟨start, bodyWords start rs, offsets, 0, cache⟩ dirty =
        some (some ⟨start, bodyWords start (applyDirty rs dirty), offsets, 0, cache⟩) := by
  intro dirty
  induction dirty with
  | nil => intro start rs offsets cache _ _ _ _ _; rfl
  | cons kv t ih =>
    intro start rs offsets cache hnd hdl hres hsz hlook
    obtain ⟨k, v⟩ := kv
    obtain ⟨l1, r, l2, hrs, hkey, hcap⟩ := hres (k, v) (List.mem_cons_self _ _)
    subst hrs
    replace hcap : v.length ≤ recCap r := hcap
    have hvlen : v.length < U32 := hdl (k, v) (List.mem_cons_self _ _)
    have hrcap : recCap r < U32 := hsz r (by simp)
    have hrvlen : r.vals.length < U32 := by
      have : r.vals.length ≤ recCap r := Nat.le_add_right _ _
      omega
    set p := dirStart start (l1 ++ r :: l2) + 8 * sizeSum l1 with hp
    set w := 2 * (l1 ++ r :: l2).length + sizeSum l1 with hwdef
    have hseekv : seekToBackingPositionM
        ⟨start, bodyWords start (l1 ++ r :: l2), offsets, 0, cache⟩ k = some (some p) := by
      unfold seekToBackingPositionM
      rw [show (⟨start, bodyWords start (l1 ++ r :: l2), offsets, 0, cache⟩ : MState).shiftkey
        = 0 from rfl]
      rw [Nat.shiftRight_zero]
      rw [show (⟨start, bodyWords start (l1 ++ r :: l2), offsets, 0, cache⟩ : MState).offsets
        = offsets from rfl]
      rw [show k = r.key from hkey.symm, hlook l1 r l2 rfl]
      rfl
    have hword := wordAt_caplen start l1 r l2
      ⟨start, bodyWords start (l1 ++ r :: l2), offsets, 0, cache⟩ rfl rfl
    have hps : p - start = 8 * w := by
      rw [hp, hwdef]
      unfold dirStart
      ring_nf
      omega
    have hlo : mkCaplen (recCap r) r.vals.length % U32 = r.vals.length :=
      mkCaplen_lo _ _ hrvlen
    have hhi : (mkCaplen (recCap r) r.vals.length >>> 32) % U32 = recCap r :=
      mkCaplen_hi _ _ hrvlen hrcap
    have hvmod : v.length % U32 = v.length := Nat.mod_eq_of_lt hvlen
    have hbody1 : (if mkCaplen (recCap r) r.vals.length % U32 = v.length % U32
        then bodyWords start (l1 ++ r :: l2)
        else writeWord (bodyWords start (l1 ++ r :: l2)) ((p - start) / 8)
          (mkCaplen ((mkCaplen (recCap r) r.vals.length >>> 32) % U32) v.length)) =
        writeWord (bodyWords start (l1 ++ r :: l2)) w (mkCaplen (recCap r) v.length) := by
      rw [hlo, hhi, hvmod, show (p - start) / 8 = w from by omega]
      by_cases hc : r.vals.length = v.length
      · rw [if_pos hc, ← hc, writeWord_caplen_self]
      · rw [if_neg hc]
    have hstep : writeWords
        (writeWord (bodyWords start (l1 ++ r :: l2)) w (mkCaplen (recCap r) v.length))
        ((p - start) / 8 + 1) v =
        bodyWords start (l1 ++ (⟨r.key, v, (r.vals ++ r.extra).drop v.length⟩ : Rec) :: l2) := by
      rw [show (p - start) / 8 = w from by omega, hwdef]
      exact inplace_step_body start l1 r l2 v hcap
    have happly2 : applyOne (l1 ++ r :: l2) (k, v) =
        l1 ++ (⟨r.key, v, (r.vals ++ r.extra).drop v.length⟩ : Rec) :: l2 :=
      applyOne_decomp l1 r l2 (k, v) hkey hnd
    set r2 : Rec := (⟨r.key, v, (r.vals ++ r.extra).drop v.length⟩ : Rec) with hr2
    have hr2cap : recCap r2 = recCap r := by
      rw [hr2]
      unfold recCap
      simp only [List.length_drop, List.length_append]
      unfold recCap at hcap
      omega
    have hr2size : recSize r2 = recSize r := by unfold recSize; rw [hr2cap]
    have hkeys2 : (l1 ++ r2 :: l2).map Rec.key = (l1 ++ r :: l2).map Rec.key := by
      simp [hr2]
    have huniq : ∀ x ∈ l1 ++ r :: l2, x.key = k → x = r := by
      intro x hx hxk
      exact eq_of_key_eq_of_nodup l1 r l2 hnd x hx (by rw [hxk, hkey])
    have hsame : ∀ x ∈ l1 ++ r :: l2,
        recSize ((fun r0 => if r0.key = (k, v).1
          then (⟨r0.key, v, (r0.vals ++ r0.extra).drop v.length⟩ : Rec) else r0) x) =
          recSize x := by
      intro x hx
      show recSize (if x.key = (k, v).1
        then (⟨x.key, v, (x.vals ++ x.extra).drop v.length⟩ : Rec) else x) = recSize x
      by_cases hxk : x.key = k
      · rw [huniq x hx hxk]
        rw [if_pos hkey]
        exact hr2size
      · rw [if_neg (show ¬ x.key = (k, v).1 from hxk)]
    have ihap := ih start (l1 ++ r2 :: l2) offsets cache
      (by rw [hkeys2]; exact hnd)
      (fun kv2 h2 => hdl kv2 (List.mem_cons_of_mem _ h2))
      ?_ ?_ ?_
    · show inplaceWrites _ ((k, v) :: t) = _
      unfold inplaceWrites
      rw [hseekv]
      simp only [hword, hbody1, hstep]
      rw [show applyDirty (l1 ++ r :: l2) ((k, v) :: t) = applyDirty (l1 ++ r2 :: l2) t from by
        unfold applyDirty
        rw [List.foldl_cons, happly2]]
      exact ihap
    · intro kv2 h2
      obtain ⟨a, x, b, hab, hxk, hxcap⟩ := hres kv2 (List.mem_cons_of_mem _ h2)
      have hxmem : x ∈ l1 ++ r :: l2 := by rw [hab]; simp
      by_cases hxk2 : x.key = k
      · have hxr : x = r := huniq x hxmem hxk2
        refine ⟨l1, r2, l2, rfl, ?_, ?_⟩
        · rw [← hxk, hxr]
        · rw [hr2cap, ← hxr]
          exact hxcap
      · have hxmem2 : x ∈ l1 ++ r2 :: l2 := by
          rcases List.mem_append.mp hxmem with h1 | h2a
          · exact List.mem_append_left _ h1
          · rcases List.mem_cons.mp h2a with he | ht
            · exact absurd (by rw [he]; exact hkey) hxk2
            · exact List.mem_append_right _ (List.mem_cons_of_mem _ ht)
        obtain ⟨s, t2, hst⟩ := List.append_of_mem hxmem2
        exact ⟨s, x, t2, hst, hxk, hxcap⟩
    · intro y hy
      rw [← happly2] at hy
      unfold applyOne at hy
      obtain ⟨x, hx, hxy⟩ := List.mem_map.mp hy
      have hxy2 : (if x.key = (k, v).1
          then (⟨x.key, v, (x.vals ++ x.extra).drop v.length⟩ : Rec) else x) = y := hxy
      by_cases hxk : x.key = k
      · rw [huniq x hx hxk] at hxy2
        rw [if_pos hkey] at hxy2
        rw [← hxy2]
        show recCap (⟨r.key, v, (r.vals ++ r.extra).drop v.length⟩ : Rec) < U32
        rw [show (⟨r.key, v, (r.vals ++ r.extra).drop v.length⟩ : Rec) = r2 from rfl, hr2cap]
        exact hrcap
      · rw [if_neg (show ¬ x.key = (k, v).1 from hxk)] at hxy2
        rw [← hxy2]
        exact hsz x hx
    · intro a2 x2 b2 hdec
      have hmap : applyOne (l1 ++ r :: l2) (k, v) = a2 ++ x2 :: b2 := by
        rw [happly2]; exact hdec
      unfold applyOne at hmap
      obtain ⟨a, x, b, hab, ha2, hx2, hb2⟩ := map_decomp _ _ _ _ _ hmap
      have hkeyeq : x2.key = x.key := by
        rw [hx2]
        by_cases hxk : x.key = (k, v).1 <;> simp [hxk]
      have hlk := hlook a x b hab
      rw [hkeyeq, hlk]
      have hlens : (l1 ++ r2 :: l2).length = (l1 ++ r :: l2).length := by simp
      have hsza : sizeSum a2 = sizeSum a := by
        rw [ha2]
        unfold sizeSum
        rw [List.map_map]
        congr 1
        apply List.map_congr_left
        intro z hz
        exact hsame z (by rw [hab]; exact List.mem_append_left _ hz)
      rw [show dirStart start (l1 ++ r2 :: l2) = dirStart start (l1 ++ r :: l2) from by
        unfold dirStart; rw [hlens]]
      rw [hsza]

theorem lookupA_mem {α : Type} :
    ∀ (l : List (Nat × α)) (k : Nat) (v : α), lookupA l k = some v → (k, v) ∈ l := by
  intro l
  induction l with
  | nil => intro k v h; cases h
  | cons e t ih =>
    intro k v h
    obtain ⟨k0, v0⟩ := e
    unfold lookupA at h
    by_cases hk : k0 = k
    · rw [if_pos hk] at h
      injection h with hv
      rw [← hk, ← hv]
      exact List.mem_cons_self _ _
    · rw [if_neg hk] at h
      exact List.mem_cons_of_mem _ (ih k v h)

theorem rec_key_inj (rs : List Rec) (hnd : (rs.map Rec.key).Nodup)
    (x y : Rec) (hx : x ∈ rs) (hy : y ∈ rs) (hk : x.key = y.key) : x = y := by
  obtain ⟨l1, l2, hdec⟩ := List.append_of_mem hy
  subst hdec
  exact eq_of_key_eq_of_nodup l1 y l2 hnd x hx hk

/-- Characterisation of the phase-1 check for one dirty key over an opened
exact-mode file: it is exactly the test that the key resolves to a stored
record whose capacity is at least the new length. -/
theorem inplaceCheckO_char (start : Nat) (rs : List Rec) (k : Nat) (vals : List Nat)
    (cache : List (Nat × List Nat))
    (hasc : Ascending rs) (hsz : SizesOK rs) (hvl : vals.length < U32) :
    inplaceCheckO ⟨start, bodyWords start rs, (fileDir start rs).reverse, 0, cache⟩ k vals =
      some (decide (∃ r ∈ rs, r.key = k ∧ vals.length ≤ recCap r)) := by
  cases hk : lookupA (fileDir start rs).reverse k with
  | none =>
    have hseek : seekToBackingPositionM
        ⟨start, bodyWords start rs, (fileDir start rs).reverse, 0, cache⟩ k = some none := by
      unfold seekToBackingPositionM
      rw [show (⟨start, bodyWords start rs, (fileDir start rs).reverse, 0, cache⟩
        : MState).shiftkey = 0 from rfl]
      rw [Nat.shiftRight_zero]
      rw [show (⟨start, bodyWords start rs, (fileDir start rs).reverse, 0, cache⟩
        : MState).offsets = (fileDir start rs).reverse from rfl]
      rw [hk]
    have hno : ¬ ∃ r ∈ rs, r.key = k ∧ vals.length ≤ recCap r := by
      rintro ⟨r, hr, hrk, _⟩
      obtain ⟨l1, l2, hdec⟩ := List.append_of_mem hr
      subst hdec
      have hl := lookupA_fileDir_reverse start l1 r l2 hasc
      rw [hrk] at hl
      rw [hl] at hk
      cases hk
    unfold inplaceCheckO
    rw [hseek, decide_eq_false hno]
  | some offs =>
    obtain ⟨l1, r, l2, hdec, he⟩ := mem_mkDir_decomp (dirStart start rs) rs (k, offs)
      (List.mem_reverse.mp (lookupA_mem _ _ _ hk))
    have hke : k = r.key := congrArg Prod.fst he
    have hoffs : offs = dirStart start rs + 8 * sizeSum l1 := congrArg Prod.snd he
    subst hdec
    have hr : r ∈ l1 ++ r :: l2 := by simp
    have hrcap : recCap r < U32 := hsz r hr
    have hrv : r.vals.length < U32 := by
      have h0 : r.vals.length ≤ recCap r := Nat.le_add_right _ _
      omega
    have hseek : seekToBackingPositionM
        ⟨start, bodyWords start (l1 ++ r :: l2), (fileDir start (l1 ++ r :: l2)).reverse, 0,
          cache⟩ k = some (some offs) := by
      unfold seekToBackingPositionM
      rw [show (⟨start, bodyWords start (l1 ++ r :: l2),
        (fileDir start (l1 ++ r :: l2)).reverse, 0, cache⟩ : MState).shiftkey = 0 from rfl]
      rw [Nat.shiftRight_zero]
      rw [show (⟨start, bodyWords start (l1 ++ r :: l2),
        (fileDir start (l1 ++ r :: l2)).reverse, 0, cache⟩ : MState).offsets
        = (fileDir start (l1 ++ r :: l2)).reverse from rfl]
      rw [hk]
      rfl
    unfold inplaceCheckO
    rw [hseek]
    have hword : wordAt (⟨start, bodyWords start (l1 ++ r :: l2),
        (fileDir start (l1 ++ r :: l2)).reverse, 0, cache⟩ : MState) offs
        = some (mkCaplen (recCap r) r.vals.length) := by
      rw [hoffs]
      exact wordAt_caplen start l1 r l2 _ rfl rfl
    simp only [hword]
    rw [mkCaplen_hi _ _ hrv hrcap, Nat.mod_eq_of_lt hvl]
    congr 1
    apply decide_eq_decide.mpr
    constructor
    · intro hle
      exact ⟨r, hr, hke.symm, hle⟩
    · rintro ⟨r2, hr2, hr2k, hr2le⟩
      have hnd : ((l1 ++ r :: l2).map Rec.key).Nodup := nodup_of_chain_lt hasc
      have hr2r : r2 = r := rec_key_inj _ hnd r2 r hr2 hr (by rw [hr2k, hke])
      rw [← hr2r]
      exact hr2le

/-- The whole phase-1 pass is the conjunction of the per-key resolve-and-fit
checks. -/
theorem inplacePhase1_char (start : Nat) (rs : List Rec) (cache : List (Nat × List Nat))
    (hasc : Ascending rs) (hsz : SizesOK rs) :
    ∀ (dirty : List (Nat × List Nat)), (∀ kv ∈ dirty, (kv.2 : List Nat).length < U32) →
      inplacePhase1 ⟨start, bodyWords start rs, (fileDir start rs).reverse, 0, cache⟩ dirty =
        some (decide (∀ kv ∈ dirty, ∃ r ∈ rs, r.key = kv.1 ∧
          (kv.2 : List Nat).length ≤ recCap r)) := by
  intro dirty
  induction dirty with
  | nil => intro _; rfl
  | cons kv t ih =>
    intro hdl
    obtain ⟨k, vals⟩ := kv
    unfold inplacePhase1
    rw [inplaceCheckO_char start rs k vals cache hasc hsz
      (hdl (k, vals) (List.mem_cons_self _ _))]
    by_cases hc : ∃ r ∈ rs, r.key = k ∧ vals.length ≤ recCap r
    · rw [decide_eq_true hc]
      have hiff : (∀ kv ∈ (k, vals) :: t, ∃ r ∈ rs, r.key = kv.1 ∧
          (kv.2 : List Nat).length ≤ recCap r) ↔ (∀ kv ∈ t, ∃ r ∈ rs, r.key = kv.1 ∧
          (kv.2 : List Nat).length ≤ recCap r) := by
        constructor
        · intro h kv2 hkv2
          exact h kv2 (List.mem_cons_of_mem _ hkv2)
        · intro h kv2 hkv2
          rcases List.mem_cons.mp hkv2 with he | ht
          · rw [he]
            exact hc
          · exact h kv2 ht
      rw [decide_eq_decide.mpr hiff]
      exact ih (fun kv2 h2 => hdl kv2 (List.mem_cons_of_mem _ h2))
    · have hno : ¬ (∀ kv ∈ (k, vals) :: t, ∃ r ∈ rs, r.key = kv.1 ∧
          (kv.2 : List Nat).length ≤ recCap r) := by
        intro hall
        exact hc (hall (k, vals) (List.mem_cons_self _ _))
      rw [decide_eq_false hc, decide_eq_false hno]

theorem recCap_update (x : Rec) (v : List Nat) (h : v.length ≤ recCap x) :
    recCap (⟨x.key, v, (x.vals ++ x.extra).drop v.length⟩ : Rec) = recCap x := by
  unfold recCap at *
  simp only [List.length_drop, List.length_append]
  omega

theorem applyOne_cond_mem (rs : List Rec) (kv : Nat × List Nat)
    (hcond : ∀ x ∈ rs, x.key = kv.1 → (kv.2 : List Nat).length ≤ recCap x) :
    ∀ y ∈ applyOne rs kv, ∃ x ∈ rs, y.key = x.key ∧ recCap y = recCap x := by
  intro y hy
  unfold applyOne at hy
  obtain ⟨x, hx, hxy⟩ := List.mem_map.mp hy
  have hxy2 : (if x.key = kv.1
      then (⟨x.key, kv.2, (x.vals ++ x.extra).drop kv.2.length⟩ : Rec) else x) = y := hxy
  by_cases hk : x.key = kv.1
  · rw [if_pos hk] at hxy2
    refine ⟨x, hx, ?_, ?_⟩
    · rw [← hxy2]
    · rw [← hxy2]
      exact recCap_update x kv.2 (hcond x hx hk)
  · rw [if_neg hk] at hxy2
    rw [← hxy2]
    exact ⟨x, hx, rfl, rfl⟩

theorem sizeSum_applyOne (rs : List Rec) (kv : Nat × List Nat)
    (hcond : ∀ x ∈ rs, x.key = kv.1 → (kv.2 : List Nat).length ≤ recCap x) :
    sizeSum (applyOne rs kv) = sizeSum rs ∧ (applyOne rs kv).length = rs.length := by
  constructor
  · unfold sizeSum applyOne
    rw [List.map_map]
    congr 1
    apply List.map_congr_left
    intro x hx
    show recSize (if x.key = kv.1
      then (⟨x.key, kv.2, (x.vals ++ x.extra).drop kv.2.length⟩ : Rec) else x) = recSize x
    by_cases hk : x.key = kv.1
    · rw [if_pos hk]
      unfold recSize
      rw [recCap_update x kv.2 (hcond x hx hk)]
    · rw [if_neg hk]
  · unfold applyOne
    exact List.length_map _ _

/-- Updating in place never changes the record count or the total word
count: each dirty value replaces the prefix of a record with enough
capacity, and the capacity is preserved. -/
theorem sizeSum_applyDirty :
    ∀ (dirty : List (Nat × List Nat)) (rs : List Rec),
      (∀ kv ∈ dirty, ∀ x ∈ rs, x.key = kv.1 → (kv.2 : List Nat).length ≤ recCap x) →
      sizeSum (applyDirty rs dirty) = sizeSum rs ∧ (applyDirty rs dirty).length = rs.length := by
  intro dirty
  induction dirty with
  | nil => intro rs _; exact ⟨rfl, rfl⟩
  | cons kv t ih =>
    intro rs hcond
    have h1 := sizeSum_applyOne rs kv (hcond kv (List.mem_cons_self _ _))
    have hstep : applyDirty rs (kv :: t) = applyDirty (applyOne rs kv) t := by
      unfold applyDirty
      rw [List.foldl_cons]
    have hcond2 : ∀ kv2 ∈ t, ∀ x ∈ applyOne rs kv, x.key = kv2.1 →
        (kv2.2 : List Nat).length ≤ recCap x := by
      intro kv2 h2 y hy hyk
      obtain ⟨x, hx, hyx, hycap⟩ :=
        applyOne_cond_mem rs kv (hcond kv (List.mem_cons_self _ _)) y hy
      rw [hycap]
      exact hcond kv2 (List.mem_cons_of_mem _ h2) x hx (by rw [← hyx]; exact hyk)
    obtain ⟨hs, hl⟩ := ih (applyOne rs kv) hcond2
    rw [hstep]
    exact ⟨by rw [hs, h1.1], by rw [hl, h1.2]⟩

theorem flushMutkeys_synced :
    ∀ (l : List (Nat × List Nat × Bool)) (d : List (Nat × List Nat)),
      (∀ e ∈ l, e.2.2 = true) → flushMutkeys d l = d := by
  intro l
  induction l with
  | nil => intro d _; rfl
  | cons e t ih =>
    intro d h
    obtain ⟨k, vals, synced⟩ := e
    have hs : synced = true := h (k, vals, synced) (List.mem_cons_self _ _)
    unfold flushMutkeys
    rw [if_pos hs]
    exact ih d (fun e he => h e (List.mem_cons_of_mem _ he))

/-- C2: over every exact-mode file (ascending directory, uint32-sized
records) opened at shift 0, with dirty values whose lengths fit uint32: the
in-place commit's phase-1 check passes if and only if every key in the
DirtySet resolves to an existing record whose stored capacity is at least
the new value count; and when it passes, the in-place commit succeeds,
clears the DirtySet, and produces exactly the original image with only the
dirty records' caplen words (same capacity, new length) and leading value
slots overwritten — in particular the file's word count is exactly
unchanged. -/
theorem c2_inplace_commit (start : Nat) (rs : List Rec)
    (dirty : List (Nat × List Nat)) (mk : List (Nat × List Nat × Bool)) (auto : Bool)
    (hasc : Ascending rs) (hsz : SizesOK rs)
    (hdl : ∀ kv ∈ dirty, (kv.2 : List Nat).length < U32)
    (m : MState) (hopen : openM start rs 0 = some m) :
    (inplacePhase1 m dirty = some true ↔
      ∀ kv ∈ dirty, ∃ r ∈ rs, r.key = kv.1 ∧ (kv.2 : List Nat).length ≤ recCap r) ∧
    ((∀ kv ∈ dirty, ∃ r ∈ rs, r.key = kv.1 ∧ (kv.2 : List Nat).length ≤ recCap r) →
      ∃ mres, inplaceCommitM ⟨m, dirty, mk, auto⟩ = some (some mres) ∧
        mres.base.body = bodyWords start (applyDirty rs dirty) ∧
        mres.base.body.length = (bodyWords start rs).length ∧
        mres.base.start = start ∧ mres.dirty = []) := by
  rw [openM_zero] at hopen
  injection hopen with hm
  subst hm
  have hnd : (rs.map Rec.key).Nodup := nodup_of_chain_lt hasc
  constructor
  · rw [inplacePhase1_char start rs [] hasc hsz dirty hdl]
    constructor
    · intro h
      exact of_decide_eq_true (Option.some.inj h)
    · intro h
      rw [decide_eq_true h]
  · intro hcond
    have hres : ∀ kv ∈ dirty, ∃ l1 r l2, rs = l1 ++ r :: l2 ∧ r.key = kv.1 ∧
        (kv.2 : List Nat).length ≤ recCap r := by
      intro kv hkv
      obtain ⟨r, hr, hrk, hrc⟩ := hcond kv hkv
      obtain ⟨l1, l2, hdec⟩ := List.append_of_mem hr
      exact ⟨l1, r, l2, hdec, hrk, hrc⟩
    have hlook : ∀ l1 r l2, rs = l1 ++ r :: l2 →
        lookupA ((fileDir start rs).reverse) r.key =
          some (dirStart start rs + 8 * sizeSum l1) := by
      intro l1 r l2 hdec
      subst hdec
      exact lookupA_fileDir_reverse start l1 r l2 hasc
    have hwr := inplaceWrites_spec dirty start rs ((fileDir start rs).reverse) []
      hnd hdl hres hsz hlook
    have hph : inplacePhase1
        ⟨start, bodyWords start rs, (fileDir start rs).reverse, 0, []⟩ dirty = some true := by
      rw [inplacePhase1_char start rs [] hasc hsz dirty hdl, decide_eq_true hcond]
    refine ⟨⟨⟨start, bodyWords start (applyDirty rs dirty), (fileDir start rs).reverse, 0,
        cacheAddAll [] dirty⟩, [], mk, auto⟩, ?_, rfl, ?_, rfl, rfl⟩
    · unfold inplaceCommitM
      rw [show (⟨⟨start, bodyWords start rs, (fileDir start rs).reverse, 0, []⟩,
        dirty, mk, auto⟩ : MutState).base
        = ⟨start, bodyWords start rs, (fileDir start rs).reverse, 0, []⟩ from rfl]
      rw [show (⟨⟨start, bodyWords start rs, (fileDir start rs).reverse, 0, []⟩,
        dirty, mk, auto⟩ : MutState).dirty = dirty from rfl]
      rw [hph]
      simp only [hwr]
    · show (bodyWords start (applyDirty rs dirty)).length = (bodyWords start rs).length
      have hcnd2 : ∀ kv ∈ dirty, ∀ x ∈ rs, x.key = kv.1 →
          (kv.2 : List Nat).length ≤ recCap x := by
        intro kv hkv x hx hxk
        obtain ⟨r, hr, hrk, hrc⟩ := hcond kv hkv
        have hxr : x = r := rec_key_inj rs hnd x r hx hr (by rw [hxk, ← hrk])
        rw [hxr]
        exact hrc
      obtain ⟨hs, hl⟩ := sizeSum_applyDirty dirty rs hcnd2
      rw [bodyWords_length, bodyWords_length, hs, hl]

theorem c2_inplace_commit_witness :
    ∃ mres, inplaceCommitM ⟨⟨16, bodyWords 16 ([⟨5, [10, 20], [0]⟩] : List Rec),
        (fileDir 16 ([⟨5, [10, 20], [0]⟩] : List Rec)).reverse, 0, []⟩,
        [(5, [7])], [], false⟩ = some (some mres) ∧
      mres.base.body = bodyWords 16 (applyDirty ([⟨5, [10, 20], [0]⟩] : List Rec) [(5, [7])]) ∧
      mres.base.body.length = (bodyWords 16 ([⟨5, [10, 20], [0]⟩] : List Rec)).length ∧
      mres.base.start = 16 ∧ mres.dirty = [] :=
  (c2_inplace_commit 16 ([⟨5, [10, 20], [0]⟩] : List Rec) [(5, [7])] [] false
    (by unfold Ascending; simp) (by unfold SizesOK; decide) (by decide)
    ⟨16, bodyWords 16 ([⟨5, [10, 20], [0]⟩] : List Rec),
      (fileDir 16 ([⟨5, [10, 20], [0]⟩] : List Rec)).reverse, 0, []⟩
    rfl).2 (by decide)

/-- The divergence of the two readers on a one-record file whose record
holds `2^29` values, proved for an arbitrary value list of that length: the
standard reader returns all the values, while in the `MMap` construction
`uint32(caplen)*8` wraps to 0 and the memory-mapped value view is empty. -/
theorem c9_wrap_general (k : Nat) (v : List Nat) (hv : v.length = 2 ^ 29) :
    ∃ m nodes,
      openM 16 ([⟨k, v, []⟩] : List Rec) 0 = some m ∧
      mmapBuildList m m.offsets = some nodes ∧
      (mapGetM m k).map Prod.fst = some (v, true) ∧
      memMapGet nodes k = ([], true) ∧
      ([] : List Nat) ≠ v := by
  have hlt : (2 ^ 29 : Nat) < U32 := by rw [U32_eq_pow]; norm_num
  set r0 : Rec := ⟨k, v, []⟩ with hr0
  have hcap : recCap r0 = 2 ^ 29 := by
    show v.length + ([] : List Nat).length = 2 ^ 29
    rw [List.length_nil, Nat.add_zero, hv]
  have hvlen : r0.vals.length = 2 ^ 29 := hv
  have hasc : Ascending ([r0] : List Rec) := by
    unfold Ascending
    exact List.chain'_singleton _
  set m : MState := ⟨16, bodyWords 16 [r0], (fileDir 16 [r0]).reverse, 0, []⟩ with hm
  have hseek : seekToBackingPositionM m r0.key =
      some (some (dirStart 16 ([] ++ r0 :: []) + 8 * sizeSum [])) :=
    seek_exact_found 16 [] r0 [] hasc m rfl rfl
  have hword : wordAt m (dirStart 16 ([] ++ r0 :: []) + 8 * sizeSum []) =
      some (mkCaplen (recCap r0) r0.vals.length) :=
    wordAt_caplen 16 [] r0 [] m rfl rfl
  have hlo : mkCaplen (recCap r0) r0.vals.length % U32 = r0.vals.length :=
    mkCaplen_lo _ _ (by rw [hvlen]; exact hlt)
  have hhi : (mkCaplen (recCap r0) r0.vals.length >>> 32) % U32 = recCap r0 :=
    mkCaplen_hi _ _ (by rw [hvlen]; exact hlt) (by rw [hcap]; exact hlt)
  have hwrapl : r0.vals.length * 8 % U32 / 8 = 0 := by
    rw [hvlen, show (2 ^ 29 : Nat) * 8 = U32 from by rw [U32_eq_pow]; norm_num,
      Nat.mod_self]
  have hwrapc : recCap r0 * 8 % U32 / 8 = 0 := by
    rw [hcap, show (2 ^ 29 : Nat) * 8 = U32 from by rw [U32_eq_pow]; norm_num,
      Nat.mod_self]
  have hnode : mmapNodeAt m (dirStart 16 ([] ++ r0 :: []) + 8 * sizeSum []) =
      some ([], []) := by
    unfold mmapNodeAt
    rw [hword]
    simp only [hlo, hhi, hwrapl, hwrapc]
    rw [if_pos trivial, List.take_zero]
    rw [if_pos (Nat.zero_le _)]
  have hoffs : m.offsets = [(r0.key, dirStart 16 ([] ++ r0 :: []) + 8 * sizeSum [])] := by
    rfl
  have hnodes : mmapBuildList m m.offsets =
      some [(r0.key, ([], []))] := by
    rw [hoffs]
    unfold mmapBuildList
    rw [hnode]
    rfl
  have hget := getFromBacking_found 16 [] r0 [] m rfl rfl
    (by rw [hcap]; exact hlt) hseek
  refine ⟨m, [(r0.key, ([], []))], openM_zero 16 [r0], hnodes, ?_, ?_, ?_⟩
  · show (getFromBackingM m r0.key).map Prod.fst = some (v, true)
    rw [hget]
    rfl
  · show memMapGet [(r0.key, ([], []))] k = ([], true)
    unfold memMapGet lookupA
    rw [if_pos (show r0.key = k from rfl)]
  · intro h
    have h2 := congrArg List.length h
    rw [List.length_nil, hv] at h2
    exact absurd h2.symm (by norm_num)

/-- C9 counterexample: a well-formed one-record file whose record holds
2^29 values.  The standard reader returns all 2^29 values, but in the
`MMap` construction `uint32(caplen)*8` wraps to 0, so the memory-mapped
value view is empty: the two readers disagree on this file. -/
theorem c9_mmap_wrap :
    ∃ m nodes,
      openM 16 ([⟨5, List.replicate (2 ^ 29) 0, []⟩] : List Rec) 0 = some m ∧
      mmapBuildList m m.offsets = some nodes ∧
      (mapGetM m 5).map Prod.fst = some (List.replicate (2 ^ 29) 0, true) ∧
      memMapGet nodes 5 = ([], true) ∧
      ([] : List Nat) ≠ List.replicate (2 ^ 29) 0 :=
  c9_wrap_general 5 (List.replicate (2 ^ 29) 0) (List.length_replicate _ _)

/-- C5 counterexample: with autosync off and an empty DirtySet, `Commit(true)`
is not a no-op.  On a one-record file with one reserved tail slot, the commit
runs the full tight rewrite and shrinks the file: the record loses its
reserved slot, so the resulting image differs from the original bytes. -/
theorem c5_packed_empty_rewrites :
    (commitM ⟨⟨16, bodyWords 16 [⟨42, [7], [0]⟩],
        (fileDir 16 [⟨42, [7], [0]⟩]).reverse, 0, []⟩, [], [], false⟩ true).map
      (fun mres => mres.base.body) = some [42, 32, 4294967297, 7] ∧
    ([42, 32, 4294967297, 7] : List Nat) ≠ bodyWords 16 [⟨42, [7], [0]⟩] := by
  constructor
  · decide
  · decide

/-- C5 amended: with an empty DirtySet (after autosync flushing, when
autosync is enabled), Commit on an existing well-formed file returns nil and
leaves the backing bytes unchanged when autosync is on (either packed mode)
or when packed is false; with autosync off and packed true it instead runs a
full tight rewrite even though nothing is dirty. -/
theorem c5_empty_dirty_noop (mm : MutState) (packed : Bool)
    (hdirty : mm.dirty = []) (hsync : ∀ e ∈ mm.mutkeys, e.2.2 = true)
    (hcase : mm.autosync = true ∨ packed = false) :
    ∃ mres, commitM mm packed = some mres ∧
      mres.base.body = mm.base.body ∧ mres.base.start = mm.base.start ∧
      mres.dirty = [] := by
  have hflush := flushMutkeys_synced mm.mutkeys mm.dirty hsync
  cases hauto : mm.autosync with
  | true =>
    have hm2 : flushM mm = { mm with dirty := [], mutkeys := [] } := by
      unfold flushM
      rw [if_pos hauto, hflush, hdirty]
    refine ⟨{ mm with dirty := [], mutkeys := [] }, ?_, rfl, rfl, rfl⟩
    unfold commitM
    rw [hm2]
    simp [hauto, hdirty]
  | false =>
    have hpacked : packed = false := by
      rcases hcase with h | h
      · rw [hauto] at h; cases h
      · exact h
    have hm2 : flushM mm = mm := by
      unfold flushM
      rw [if_neg (by rw [hauto]; simp)]
    have hic : inplaceCommitM mm = some (some { mm with dirty := [] }) := by
      unfold inplaceCommitM
      rw [hdirty]
      rfl
    refine ⟨{ mm with dirty := [] }, ?_, rfl, rfl, rfl⟩
    unfold commitM
    rw [hm2, hpacked]
    rw [if_neg (by rw [hauto]; simp)]
    simp only [Bool.false_eq_true, if_false]
    rw [hic]

/-- C5 witness: the amended no-op theorem at a concrete autosync mutable map
over a one-record file, with packed = true. -/
theorem c5_empty_dirty_noop_witness :
    ((⟨⟨16, bodyWords 16 [⟨42, [7], [0]⟩], (fileDir 16 [⟨42, [7], [0]⟩]).reverse, 0, []⟩,
        [], [], true⟩ : MutState).dirty = []) ∧
    (∃ mres, commitM ⟨⟨16, bodyWords 16 [⟨42, [7], [0]⟩],
        (fileDir 16 [⟨42, [7], [0]⟩]).reverse, 0, []⟩, [], [], true⟩ true = some mres ∧
      mres.base.body = bodyWords 16 [⟨42, [7], [0]⟩] ∧ mres.base.start = 16 ∧
      mres.dirty = []) := by
  constructor
  · rfl
  · exact c5_empty_dirty_noop
      ⟨⟨16, bodyWords 16 [⟨42, [7], [0]⟩], (fileDir 16 [⟨42, [7], [0]⟩]).reverse, 0, []⟩,
        [], [], true⟩ true rfl (by intro e he; cases he) (Or.inl rfl)

/-- C10 witness: a concrete exact file with a length-0 record for key 12 and
a length-2 record for key 5. -/
theorem c10_zero_length_get_witness :
    (Ascending ([⟨5, [10, 20], []⟩, ⟨12, [], [0, 0]⟩] : List Rec) ∧
      SizesOK ([⟨5, [10, 20], []⟩, ⟨12, [], [0, 0]⟩] : List Rec)) ∧
    (∃ m, openM 16 ([⟨5, [10, 20], []⟩, ⟨12, [], [0, 0]⟩] : List Rec) 0 = some m ∧
      m.cache = [] ∧
      ∀ (l1 : List Rec) (r : Rec) (l2 : List Rec),
        ([⟨5, [10, 20], []⟩, ⟨12, [], [0, 0]⟩] : List Rec) = l1 ++ r :: l2 →
        (r.vals = [] → mapGetM m r.key = some (([], true), m.cache)) ∧
        (r.vals ≠ [] →
          mapGetM m r.key = some ((r.vals, true), cacheAdd m.cache r.key r.vals))) :=
  ⟨⟨by unfold Ascending; simp, by unfold SizesOK; decide⟩,
    c10_zero_length_get 16 ([⟨5, [10, 20], []⟩, ⟨12, [], [0, 0]⟩] : List Rec)
      (by unfold Ascending; simp) (by unfold SizesOK; decide)⟩


/-! ### C6: header order and fail-fast magic validation -/

theorem natToBytesLE_length : ∀ (w x : Nat), (natToBytesLE w x).length = w := by
  intro w
  induction w with
  | zero => intro x; rfl
  | succ n ih =>
    intro x
    unfold natToBytesLE
    rw [List.length_cons, ih]

theorem bytesToNatLE_natToBytesLE : ∀ (w x : Nat), x < 256 ^ w →
    bytesToNatLE (natToBytesLE w x) = x := by
  intro w
  induction w with
  | zero =>
    intro x hx
    unfold natToBytesLE bytesToNatLE
    simp only [pow_zero] at hx
    omega
  | succ n ih =>
    intro x hx
    unfold natToBytesLE bytesToNatLE
    rw [ih (x / 256) (by
      have h2 : x < 256 ^ n * 256 := by
        rw [← pow_succ]
        exact hx
      exact (Nat.div_lt_iff_lt_mul (by norm_num)).mpr h2)]
    omega

theorem parsePairsB_encode : ∀ (dir : List (Nat × Nat)),
    (∀ p ∈ dir, (p : Nat × Nat).1 < 2 ^ 64 ∧ (p : Nat × Nat).2 < 2 ^ 64) →
    parsePairsB dir.length (encodePairs dir) = some dir := by
  intro dir
  induction dir with
  | nil => intro _; rfl
  | cons p t ih =>
    intro h
    obtain ⟨k, o⟩ := p
    obtain ⟨hk, ho⟩ := h (k, o) (List.mem_cons_self _ _)
    have hK : (natToBytesLE 8 k).length = 8 := natToBytesLE_length _ _
    have hO : (natToBytesLE 8 o).length = 8 := natToBytesLE_length _ _
    show parsePairsB (t.length + 1)
      (natToBytesLE 8 k ++ (natToBytesLE 8 o ++ encodePairs t)) = some ((k, o) :: t)
    unfold parsePairsB
    rw [if_pos (by simp only [List.length_append, hK, hO]; omega)]
    rw [List.take_left' hK, List.drop_left' hK, List.take_left' hO]
    rw [show (16 : Nat) = 8 + 8 from rfl]
    rw [← List.drop_drop, List.drop_left' hK, List.drop_left' hO]
    rw [ih (fun q hq => h q (List.mem_cons_of_mem _ hq))]
    rw [bytesToNatLE_natToBytesLE 8 k (by norm_num at hk ⊢; exact hk)]
    rw [bytesToNatLE_natToBytesLE 8 o (by norm_num at ho ⊢; exact ho)]
    rfl

/-- C6: opening a file in the current format validates the 4-byte
little-endian magic 0x6D73386A before reading anything else — a file whose
first four bytes decode to any other value is rejected at open, whatever
follows them — and on a well-formed file the open reads the sidecar length,
the sidecar bytes and `num_keys` in that order and only then iterates the
`num_keys` directory entries, feeding them to the `NewShifted` directory
loop. -/
theorem c6_open_header (shift : Nat) :
    (∀ m tail, m < 2 ^ 32 → m ≠ MAGIC →
      openSpec shift (natToBytesLE 4 m ++ tail) = none) ∧
    (∀ sc dir, sc.length < 2 ^ 32 → dir.length < 2 ^ 64 →
      (∀ p ∈ dir, (p : Nat × Nat).1 < 2 ^ 64 ∧ (p : Nat × Nat).2 < 2 ^ 64) →
      openSpec shift (encodeFile sc dir) =
        (buildOffsetsGo shift dir 0 0 []).map (fun offs => (sc, offs))) := by
  constructor
  · intro m tail hm hne
    have hA : (natToBytesLE 4 m).length = 4 := natToBytesLE_length _ _
    unfold openSpec
    rw [if_neg (show ¬ (natToBytesLE 4 m ++ tail).length < 4 from by
      simp only [List.length_append, hA]; omega)]
    rw [List.take_left' hA]
    rw [bytesToNatLE_natToBytesLE 4 m (by norm_num at hm ⊢; exact hm)]
    rw [if_pos hne]
  · intro sc dir hsc hdlen hent
    have hA : (natToBytesLE 4 MAGIC).length = 4 := natToBytesLE_length _ _
    have hB : (natToBytesLE 4 sc.length).length = 4 := natToBytesLE_length _ _
    have hC : (natToBytesLE 8 dir.length).length = 8 := natToBytesLE_length _ _
    simp only [openSpec, encodeFile]
    rw [if_neg (show ¬ (natToBytesLE 4 MAGIC ++ (natToBytesLE 4 sc.length ++ (sc ++
        (natToBytesLE 8 dir.length ++ encodePairs dir)))).length < 4 from by
      simp only [List.length_append, hA]; omega)]
    rw [List.take_left' hA, List.drop_left' hA]
    rw [bytesToNatLE_natToBytesLE 4 MAGIC (by norm_num [MAGIC])]
    rw [if_neg (show ¬ MAGIC ≠ MAGIC from by simp)]
    rw [if_neg (show ¬ (natToBytesLE 4 sc.length ++ (sc ++
        (natToBytesLE 8 dir.length ++ encodePairs dir))).length < 4 from by
      simp only [List.length_append, hB]; omega)]
    rw [List.take_left' hB, List.drop_left' hB]
    rw [bytesToNatLE_natToBytesLE 4 sc.length (by norm_num at hsc ⊢; exact hsc)]
    rw [if_neg (show ¬ (sc ++ (natToBytesLE 8 dir.length ++ encodePairs dir)).length <
        sc.length from by
      simp only [List.length_append]; omega)]
    rw [List.take_left' rfl, List.drop_left' rfl]
    rw [if_neg (show ¬ (natToBytesLE 8 dir.length ++ encodePairs dir).length < 8 from by
      simp only [List.length_append, hC]; omega)]
    rw [List.take_left' hC, List.drop_left' hC]
    rw [bytesToNatLE_natToBytesLE 8 dir.length (by norm_num at hdlen ⊢; exact hdlen)]
    rw [parsePairsB_encode dir hent]

theorem c6_open_header_witness :
    openSpec 0 (natToBytesLE 4 99 ++ [1, 2, 3]) = none ∧
    openSpec 0 (encodeFile [7, 8] [(5, 40)]) = some ([7, 8], [(5, 40)]) := by
  constructor
  · exact (c6_open_header 0).1 99 [1, 2, 3] (by norm_num) (by norm_num [MAGIC])
  · rw [(c6_open_header 0).2 [7, 8] [(5, 40)] (by norm_num) (by norm_num)
      (by decide)]
    rfl

end ESM
